import Mathlib

/-!
Verification of the program-representation core of syzkaller's `prog`
package (files `prog/analysis.go` and `prog/any.go`): the generic
argument-tree traversal, the conservative resource/string analysis,
the whole-program feature scan, and universal-ANY pointer squashing.

Go values of machine type `uint64` are modelled as `Nat`; the one
place where Go's wrap-around subtraction matters (union padding in
`squashPtrImpl`) uses an explicit `% 2 ^ 64`.

Functions whose Go counterpart can `panic` return `Option _`, with
`none` modelling the panic.
-/

namespace Syz

/-- Argument direction, mirroring `DirIn`, `DirOut`, `DirInOut`. -/
inductive Dir where
  | dirIn
  | dirOut
  | dirInOut
deriving DecidableEq, Repr

/-- Buffer kinds of `BufferType` that the analysed code distinguishes:
`BufferString`, `BufferFilename`, and everything else (blobs). -/
inductive BufferKind where
  | blob
  | string
  | filename
deriving DecidableEq, Repr

/-- The concrete (Go dynamic) type of a `Type` value: which struct of
the `prog` package implements the interface, together with the fields
of that struct the analysed code reads.  `ptrK` stores the identity
(`elemUid`) of the pointed-to type value, modelling Go pointer
identity: `anyArrayUid` is reserved for the per-target singleton
`target.anyArray`. -/
inductive TypKind where
  | structK (alignAttr : Nat)
  | arrayK
  | unionK (nFields : Nat)
  | ptrK (elemUid : Nat)
  | resourceK (rname : String)
  | bufferK (bk : BufferKind)
  | csumK
  | constK (isPad : Bool)
  | intK
deriving DecidableEq, Repr

/-- Modelled from the spec: the common data of a type description
(`TypeCommon`/`IntTypeCommon` live in `prog.go`, outside the provided
slice) — size, direction in/out/inout, optional flag, bitfield
offset/length, "bitfield middle" flag, variable-length flag. -/
structure Typ where
  name : String
  size : Nat
  dir : Dir
  isVarlen : Bool
  isOptional : Bool
  bitfieldOff : Nat
  bitfieldLen : Nat
  bitfieldMid : Bool
  kind : TypKind
deriving DecidableEq, Repr

/-- One argument node: the closed variant set
{Const, Result, Pointer, Data, Group, Union} of the `prog` package.
`data` carries the byte payload (used when direction is not out) and
the declared size used when direction is out; `ptr` carries the
mutually exclusive payloads `res` and `vmaSize`. -/
inductive Arg where
  | const (t : Typ) (val : Nat)
  | result (t : Typ) (val : Nat)
  | ptr (t : Typ) (addr : Nat) (res : Option Arg) (vmaSize : Nat)
  | data (t : Typ) (bytes : List Nat) (outSize : Nat)
  | group (t : Typ) (inner : List Arg)
  | union (t : Typ) (opt : Arg)
deriving Repr

mutual

/-- Boolean structural equality on arguments (Go `==` on values;
used to model Go pointer comparisons, which on tree-shaped data
distinct nodes never alias). -/
def Arg.beq : Arg → Arg → Bool
  | .const t v, .const t' v' => t = t' ∧ v = v'
  | .result t v, .result t' v' => t = t' ∧ v = v'
  | .ptr t a r vm, .ptr t' a' r' vm' =>
    decide (t = t') && decide (a = a') && argOptBeq r r' && decide (vm = vm')
  | .data t bs sz, .data t' bs' sz' => t = t' ∧ bs = bs' ∧ sz = sz'
  | .group t inner, .group t' inner' => decide (t = t') && argListBeq inner inner'
  | .union t o, .union t' o' => decide (t = t') && Arg.beq o o'
  | _, _ => false

/-- Pointwise `Arg.beq` on optional arguments. -/
def argOptBeq : Option Arg → Option Arg → Bool
  | none, none => true
  | some a, some b => Arg.beq a b
  | _, _ => false

/-- Pointwise `Arg.beq` on argument lists. -/
def argListBeq : List Arg → List Arg → Bool
  | [], [] => true
  | a :: as_, b :: bs => Arg.beq a b && argListBeq as_ bs
  | _, _ => false

end

mutual

theorem Arg.beq_iff : ∀ a b : Arg, Arg.beq a b = true ↔ a = b
  | .const t v, b => by
    cases b <;> simp [Arg.beq]
  | .result t v, b => by
    cases b <;> simp [Arg.beq]
  | .ptr t a r vm, b => by
    cases b <;> simp [Arg.beq, argOptBeq_iff r, and_assoc]
  | .data t bs sz, b => by
    cases b <;> simp [Arg.beq]
  | .group t inner, b => by
    cases b <;> simp [Arg.beq, argListBeq_iff inner]
  | .union t o, b => by
    cases b <;> simp [Arg.beq, Arg.beq_iff o]

theorem argOptBeq_iff : ∀ a b : Option Arg, argOptBeq a b = true ↔ a = b
  | none, b => by cases b <;> simp [argOptBeq]
  | some x, b => by cases b <;> simp [argOptBeq, Arg.beq_iff x]

theorem argListBeq_iff : ∀ a b : List Arg, argListBeq a b = true ↔ a = b
  | [], b => by cases b <;> simp [argListBeq]
  | x :: xs, b => by
    cases b <;> simp [argListBeq, Arg.beq_iff x, argListBeq_iff xs]

end

instance : DecidableEq Arg := fun a b =>
  decidable_of_iff (Arg.beq a b = true) (Arg.beq_iff a b)

/-- The `Type()` accessor of an argument. -/
def Arg.typ : Arg → Typ
  | .const t _ => t
  | .result t _ => t
  | .ptr t _ _ _ => t
  | .data t _ _ => t
  | .group t _ => t
  | .union t _ => t

mutual

/-- Modelled from the spec: `Arg.Size()` is defined in `prog.go`,
outside the provided slice.  Scalar/pointer/result arguments take the
size declared by their type; a data argument takes its byte length
(its declared out-size when direction is out, since out payloads carry
no bytes); a fixed-length group or union takes its declared type size;
a variable-length union takes its active option's size; a
variable-length group takes the total size of its non-bitfield-middle
children, rounded up to the alignment attribute for an
alignment-constrained variable-length struct (matching the padding
rule of `squashPtrImpl` in `any.go`). -/
def Arg.size : Arg → Nat
  | .const t _ => t.size
  | .result t _ => t.size
  | .ptr t _ _ _ => t.size
  | .data t bytes outSize => if t.dir = .dirOut then outSize else bytes.length
  | .union t opt => if t.isVarlen then opt.size else t.size
  | .group t inner =>
    if t.isVarlen then
      let s := sizeFields inner
      match t.kind with
      | .structK align =>
        if align ≠ 0 ∧ s % align ≠ 0 then s + (align - s % align) else s
      | _ => s
    else t.size

/-- Total size of the non-bitfield-middle members of a field list. -/
def sizeFields : List Arg → Nat
  | [] => 0
  | f :: fs => (if f.typ.bitfieldMid then 0 else f.size) + sizeFields fs

end

/-- Target description: the per-architecture constants this core
reads (`PtrSize`, `PageSize`, `NumPages`). -/
structure Target where
  ptrSize : Nat
  pageSize : Nat
  numPages : Nat
deriving DecidableEq, Repr

/-- Reserved identity of the singleton `target.anyArray` type value
(Go pointer identity, see `TypKind.ptrK`). -/
def anyArrayUid : Nat := 0

/-- `target.anyUnion` from `initAnyTypes`: the five-member universal
union; its `StructDesc` is varlen, direction in. -/
def anyUnionT : Typ :=
  { name := "ANYUNION", size := 0, dir := .dirIn, isVarlen := true,
    isOptional := false, bitfieldOff := 0, bitfieldLen := 0,
    bitfieldMid := false, kind := .unionK 5 }

/-- `target.anyArray` from `initAnyTypes`: varlen array of `anyUnion`. -/
def anyArrayT : Typ :=
  { name := "ANYARRAY", size := 0, dir := .dirIn, isVarlen := true,
    isOptional := false, bitfieldOff := 0, bitfieldLen := 0,
    bitfieldMid := false, kind := .arrayK }

/-- `target.anyBlob` from `initAnyTypes`: varlen byte blob. -/
def anyBlobT : Typ :=
  { name := "ANYBLOB", size := 0, dir := .dirIn, isVarlen := true,
    isOptional := false, bitfieldOff := 0, bitfieldLen := 0,
    bitfieldMid := false, kind := .bufferK .blob }

/-- `target.anyPtrPtr` from `initAnyTypes`: native-width optional
pointer to the universal array. -/
def anyPtrPtrT (tg : Target) : Typ :=
  { name := "ANYPTR", size := tg.ptrSize, dir := .dirIn, isVarlen := false,
    isOptional := true, bitfieldOff := 0, bitfieldLen := 0,
    bitfieldMid := false, kind := .ptrK anyArrayUid }

/-- `target.anyPtr64` from `initAnyTypes`: 8-byte optional pointer to
the universal array. -/
def anyPtr64T : Typ :=
  { name := "ANYPTR64", size := 8, dir := .dirIn, isVarlen := false,
    isOptional := true, bitfieldOff := 0, bitfieldLen := 0,
    bitfieldMid := false, kind := .ptrK anyArrayUid }

/-- `target.anyRes32` from `initAnyTypes`: 4-byte kind-erased resource
placeholder, direction in, optional. -/
def anyRes32T : Typ :=
  { name := "ANYRES32", size := 4, dir := .dirIn, isVarlen := false,
    isOptional := true, bitfieldOff := 0, bitfieldLen := 0,
    bitfieldMid := false, kind := .resourceK "ANYRES32" }

/-- `target.anyRes64` from `initAnyTypes`: 8-byte kind-erased resource
placeholder, direction in, optional. -/
def anyRes64T : Typ :=
  { name := "ANYRES64", size := 8, dir := .dirIn, isVarlen := false,
    isOptional := true, bitfieldOff := 0, bitfieldLen := 0,
    bitfieldMid := false, kind := .resourceK "ANYRES64" }

/-- `target.makeAnyPtrType(size, field)`: copy `anyPtrPtr` for native
size, `anyPtr64` for size 8, any other size is a defect (`none`); set
the copy's size, and its field name when `field` is nonempty. -/
def makeAnyPtrType (tg : Target) (size : Nat) (field : String) : Option Typ :=
  if size = tg.ptrSize then
    let base := anyPtrPtrT tg
    let nm := if field ≠ "" then field else base.name
    some { base with size := size, name := nm }
  else if size = 8 then
    let base := anyPtr64T
    let nm := if field ≠ "" then field else base.name
    some { base with size := size, name := nm }
  else
    none

/-- `target.isAnyPtr(typ)`: the type is a pointer type whose
pointed-to type is (by identity) the singleton universal array. -/
def isAnyPtr (t : Typ) : Bool :=
  match t.kind with
  | .ptrK elemUid => elemUid = anyArrayUid
  | _ => false

/-- Little-endian byte emission: the loop
`for i := 0..n-1 { b = byte(v); v >>= 8 }`. -/
def leBytes (v : Nat) (n : Nat) : List Nat :=
  (List.range n).map (fun i => v / 256 ^ i % 256)

/-- Modelled from the spec: `ConstArg.ValueForProc` (defined in
`prog.go`, outside the provided slice) — squashing "needs a constant
value"; for ordinary constants it is the stored value, independent of
the process index. -/
def valueForProc (v : Nat) (_proc : Nat) : Nat := v

/-- Modelled from the spec: `target.PhysicalAddr(arg)` (defined in
`prog.go`, outside the provided slice) — a payload-free pointer leaf
"contributes its raw address value as plain bytes". -/
def physicalAddr (addr : Nat) : Nat := addr

/-- `target.ensureDataElem(elems)` followed by appending `bs` to the
returned blob.  The Go code asserts the last element is a `UnionArg`
(always the case along squash paths, which append only unions): when
its option is a data argument the blob is extended in place, otherwise
a fresh `ANYBLOB` data element is appended (also when `bs` is empty,
matching the Go call order). -/
def ensureAppendData (elems : List Arg) (bs : List Nat) : List Arg :=
  match elems.getLast? with
  | some (.union ut (.data dt dbytes dsz)) =>
    elems.dropLast ++ [.union ut (.data dt (dbytes ++ bs) dsz)]
  | _ => elems ++ [.union anyUnionT (.data anyBlobT bs 0)]

mutual

/-- `target.squashPtr(arg, preserveField)`: flatten the pointer's
subtree into a universal-ANY element sequence, replace the pointer's
type with the universal pointer type and its payload with the
sequence, and re-check that the total size is unchanged.  `none`
models each of the panics (missing payload, VMA payload, bad pointer
size, size mismatch). -/
def squashPtr (tg : Target) (a : Arg) (preserveField : Bool) : Option Arg :=
  match a with
  | .ptr t addr res vma =>
    match res with
    | none => none
    | some r =>
      if vma ≠ 0 then none
      else
        let size0 := r.size
        match squashPtrImpl tg r [] with
        | none => none
        | some es =>
          let field := if preserveField then t.name else ""
          match makeAnyPtrType tg t.size field with
          | none => none
          | some t' =>
            let newRes : Arg := .group anyArrayT es
            if newRes.size ≠ size0 then none
            else some (.ptr t' addr (some newRes) vma)
  | _ => none

/-- `target.squashPtrImpl(a, elems)`: walk one argument, appending the
produced elements to `elems`.  `none` models the panics (bitfield in
squash, bad resource size, nested squash failure). -/
def squashPtrImpl (tg : Target) (a : Arg) (elems : List Arg) : Option (List Arg) :=
  if a.typ.bitfieldMid then none
  else
    match a with
    | .const t v =>
      let padded : List Arg × Nat :=
        match t.kind with
        | .constK true => (elems, t.size)
        | _ => (ensureAppendData elems (leBytes (valueForProc v 0) t.size), 0)
      if padded.2 ≠ 0 then
        some (ensureAppendData padded.1 (List.replicate padded.2 0))
      else some padded.1
    | .result t v =>
      if t.size = 4 then
        some (elems ++ [.union anyUnionT (.result anyRes32T v)])
      else if t.size = 8 then
        some (elems ++ [.union anyUnionT (.result anyRes64T v)])
      else none
    | .ptr t addr res vma =>
      match res with
      | some r =>
        match squashPtr tg (.ptr t addr (some r) vma) false with
        | none => none
        | some a' => some (elems ++ [.union anyUnionT a'])
      | none =>
        some (ensureAppendData elems (leBytes (physicalAddr addr) t.size))
    | .union t opt =>
      let pad := if ¬ t.isVarlen
        then (Arg.size (.union t opt) + (2 ^ 64 - opt.size % 2 ^ 64)) % 2 ^ 64
        else 0
      match squashPtrImpl tg opt elems with
      | none => none
      | some es =>
        if pad ≠ 0 then some (ensureAppendData es (List.replicate pad 0))
        else some es
    | .data t bytes outSize =>
      if t.dir = .dirOut then
        let pad := Arg.size (.data t bytes outSize)
        if pad ≠ 0 then some (ensureAppendData elems (List.replicate pad 0))
        else some elems
      else
        some (ensureAppendData elems bytes)
    | .group t inner =>
      let pad :=
        match t.kind with
        | .structK align =>
          if t.isVarlen ∧ align ≠ 0 then
            let fieldsSize := sizeFields inner
            if fieldsSize % align ≠ 0 then align - fieldsSize % align else 0
          else 0
        | _ => 0
      match squashFields tg inner elems with
      | none => none
      | some es =>
        if pad ≠ 0 then some (ensureAppendData es (List.replicate pad 0))
        else some es

/-- The field loop of the `GroupArg` case of `squashPtrImpl`:
bitfield-middle fields are skipped entirely. -/
def squashFields (tg : Target) (fields : List Arg) (elems : List Arg) :
    Option (List Arg) :=
  match fields with
  | [] => some elems
  | f :: fs =>
    if f.typ.bitfieldMid then squashFields tg fs elems
    else
      match squashPtrImpl tg f elems with
      | none => none
      | some es => squashFields tg fs es

end

/-- `ArgCtx`: the structural context handed to traversal callbacks.
`parent` models the `*[]Arg` slice pointer by its value, `base` the
`*PointerArg` by the pointer argument itself; the `Stop` field is
modelled by the callback's boolean return value. -/
structure ArgCtx where
  parent : Option (List Arg) := none
  base : Option Arg := none
  offset : Nat := 0
deriving DecidableEq, Repr

mutual

/-- `foreachArgImpl(arg, ctx, f)`: pre-order traversal of one
argument, returning the list of (argument, context) visits.  The
callback `f` returns the `Stop` flag; `none` models the group-size
panic. -/
def foreachArgImpl (f : Arg → ArgCtx → Bool) (a : Arg) (ctx : ArgCtx) :
    Option (List (Arg × ArgCtx)) :=
  if f a ctx then some [(a, ctx)]
  else
    match a with
    | .group t inner =>
      let ctx1 :=
        match t.kind with
        | .structK _ => { ctx with parent := some inner }
        | _ => ctx
      match foreachFields f inner ctx1 with
      | none => none
      | some (vs, totalSize) =>
        let claimedSize := Arg.size (.group t inner)
        if t.isVarlen ∧ totalSize > claimedSize then none
        else if ¬ t.isVarlen ∧ totalSize ≠ claimedSize then none
        else some ((.group t inner, ctx) :: vs)
    | .ptr t addr res vma =>
      match res with
      | some r =>
        let a0 : Arg := .ptr t addr (some r) vma
        match foreachArgImpl f r { ctx with base := some a0, offset := 0 } with
        | none => none
        | some vs => some ((a0, ctx) :: vs)
      | none => some [(.ptr t addr none vma, ctx)]
    | .union t opt =>
      match foreachArgImpl f opt ctx with
      | none => none
      | some vs => some ((.union t opt, ctx) :: vs)
    | other => some [(other, ctx)]

/-- The child loop of the `GroupArg` case of `foreachArgImpl`:
visits children in order, accumulating the offset and the total size
by each non-bitfield-middle child's size. -/
def foreachFields (f : Arg → ArgCtx → Bool) (fields : List Arg) (ctx : ArgCtx) :
    Option (List (Arg × ArgCtx) × Nat) :=
  match fields with
  | [] => some ([], 0)
  | x :: xs =>
    match foreachArgImpl f x ctx with
    | none => none
    | some v =>
      let step := if x.typ.bitfieldMid then 0 else x.size
      match foreachFields f xs { ctx with offset := ctx.offset + step } with
      | none => none
      | some (vs, tot) => some (v ++ vs, step + tot)

end

/-- `ForeachSubArg(arg, f)`: traversal rooted at an argument, with an
empty initial context. -/
def foreachSubArg (f : Arg → ArgCtx → Bool) (a : Arg) :
    Option (List (Arg × ArgCtx)) :=
  foreachArgImpl f a {}

/-- `Call`: one syscall invocation — name, ordered arguments, and the
optional return pseudo-argument. -/
structure Call where
  name : String := ""
  args : List Arg := []
  ret : Option Arg := none
deriving DecidableEq, Repr

/-- The top-level argument loop of `ForeachArg`: each positional
argument is traversed with the same context (parent set to the
argument slice, offset 0). -/
def foreachCallArgs (f : Arg → ArgCtx → Bool) (args : List Arg) (ctx : ArgCtx) :
    Option (List (Arg × ArgCtx)) :=
  match args with
  | [] => some []
  | a :: rest =>
    match foreachArgImpl f a ctx with
    | none => none
    | some v =>
      match foreachCallArgs f rest ctx with
      | none => none
      | some vs => some (v ++ vs)

/-- `ForeachArg(c, f)`: visit the return pseudo-argument first (with
an empty context), then the positional arguments in declared order
(with `Parent` set to the call's argument slice). -/
def foreachArg (f : Arg → ArgCtx → Bool) (c : Call) :
    Option (List (Arg × ArgCtx)) :=
  let ctx : ArgCtx := {}
  let retVisits : Option (List (Arg × ArgCtx)) :=
    match c.ret with
    | some r => foreachArgImpl f r ctx
    | none => some []
  match retVisits with
  | none => none
  | some rv =>
    match foreachCallArgs f c.args { ctx with parent := some c.args } with
    | none => none
    | some av => some (rv ++ av)

/-- The callback of `state.analyze` and `RequiredFeatures` never sets
the `Stop` flag. -/
def noStop : Arg → ArgCtx → Bool := fun _ _ => false

/-- `Prog`: an ordered sequence of calls, owned by a target. -/
structure Prog where
  target : Target
  calls : List Call
deriving DecidableEq, Repr

/-- The analysis snapshot of `state`: filename set, resource table
(kind name to ordered argument occurrences), string set, and the
one-way reservation logs of the byte- and page-granularity
allocators (`memAlloc.noteAlloc` / `vmaAlloc.noteAlloc` live outside
the provided slice; modelled from the spec as fire-and-forget
"reserve range" notes). -/
structure AState where
  files : List (List Nat) := []
  resources : List (String × List Arg) := []
  strings : List (List Nat) := []
  ma : List (Nat × Nat) := []
  va : List (Nat × Nat) := []
deriving DecidableEq, Repr

/-- Go set insertion `m[k] = true` on a `map[string]bool`, modelled on
a duplicate-free list of keys. -/
def setInsert (s : List (List Nat)) (x : List Nat) : List (List Nat) :=
  if x ∈ s then s else s ++ [x]

/-- Go `m[k] = append(m[k], arg)` on a `map[string][]Arg`, modelled on
an association list. -/
def resAdd (m : List (String × List Arg)) (k : String) (a : Arg) :
    List (String × List Arg) :=
  match m with
  | [] => [(k, [a])]
  | (k', l) :: rest =>
    if k' = k then (k', l ++ [a]) :: rest else (k', l) :: resAdd rest k a

/-- Lookup `m[k]` on the modelled resource table (empty when absent). -/
def resLookup (m : List (String × List Arg)) (k : String) : List Arg :=
  match m with
  | [] => []
  | (k', l) :: rest => if k' = k then l else resLookup rest k

/-- Modelled from the spec: `PointerArg.IsNull()` (defined in
`prog.go`, outside the provided slice) — null is the third,
payload-free pointer state: address 0, no subtree, no VMA size. -/
def Arg.isNullPtr : Arg → Bool
  | .ptr _ addr res vma => addr = 0 ∧ res = none ∧ vma = 0
  | _ => false

/-- The first switch of the `state.analyze` callback: the pointer
cases noting allocator reservations.  `none` models the nil
dereference of `a.Res.Size()` on a payload-free non-null pointer. -/
def analyzePtr (tg : Target) (s : AState) (arg : Arg) : Option AState :=
  match arg with
  | .ptr t addr res vma =>
    if Arg.isNullPtr (.ptr t addr res vma) then some s
    else if vma ≠ 0 then
      some { s with va := s.va ++ [(addr / tg.pageSize, vma / tg.pageSize)] }
    else
      match res with
      | some r => some { s with ma := s.ma ++ [(addr, r.size)] }
      | none => none
  | _ => some s

/-- The second switch of the `state.analyze` callback: the type
switch recording produced resources and input string/filename
contents.  `none` models the panic of the Go type assertion
`arg.(*DataArg)` on a non-data buffer-typed argument. -/
def analyzeTyp (s1 : AState) (arg : Arg) : Option AState :=
  match arg.typ.kind with
  | .resourceK rname =>
    if arg.typ.dir ≠ .dirIn then
      some { s1 with resources := resAdd s1.resources rname arg }
    else some s1
  | .bufferK bk =>
    match arg with
    | .data t bytes _ =>
      if t.dir ≠ .dirOut ∧ bytes ≠ [] then
        match bk with
        | .string => some { s1 with strings := setInsert s1.strings bytes }
        | .filename => some { s1 with files := setInsert s1.files bytes }
        | .blob => some s1
      else some s1
    | _ => none
  | _ => some s1

/-- The per-argument body of the `state.analyze` callback: the
pointer switch followed by the type switch. -/
def analyzeArg (tg : Target) (s : AState) (arg : Arg) : Option AState :=
  match analyzePtr tg s arg with
  | none => none
  | some s1 => analyzeTyp s1 arg

/-- `state.analyze(c)`: traverse the call's arguments with a
never-stopping callback and fold the per-argument analysis over the
visits in order. -/
def stateAnalyzeCall (tg : Target) (s : AState) (c : Call) : Option AState :=
  match foreachArg noStop c with
  | none => none
  | some vs => vs.foldlM (fun st pr => analyzeArg tg st pr.1) s

/-- `analyze(ct, p, c)`: fold `state.analyze` over the calls of `p`
strictly before the first occurrence of `c` (the Go loop breaks at
pointer equality with `c`), starting from the empty snapshot. -/
def analyze (p : Prog) (c : Call) : Option AState :=
  (p.calls.takeWhile (fun c1 => c1 ≠ c)).foldlM
    (stateAnalyzeCall p.target) {}

/-- The per-visit accumulation of `RequiredFeatures`: or-in whether
this argument is a scalar with a nonzero bitfield offset or length,
and whether its type is the checksum kind. -/
def featuresStep (acc : Bool × Bool) (arg : Arg) : Bool × Bool :=
  let bitmasks :=
    match arg with
    | .const t _ => acc.1 || (t.bitfieldOff ≠ 0 || t.bitfieldLen ≠ 0)
    | _ => acc.1
  let csums :=
    match arg.typ.kind with
    | .csumK => true
    | _ => acc.2
  (bitmasks, csums)

/-- `RequiredFeatures(p)`: scan every call of the whole program (no
cutoff), accumulating the two feature booleans. -/
def requiredFeatures (p : Prog) : Option (Bool × Bool) :=
  p.calls.foldlM
    (fun acc c =>
      match foreachArg noStop c with
      | none => none
      | some vs => some (vs.foldl (fun a pr => featuresStep a pr.1) acc))
    (false, false)

/-- The node test of the `isComplexPtr` scan: does visiting this
argument set the result — a variable-length struct, or a
variable-length union with more than five alternatives. -/
def complexNode (a : Arg) : Bool :=
  match a.typ.kind with
  | .structK _ => a.typ.isVarlen
  | .unionK n => a.typ.isVarlen && n > 5
  | _ => false

/-- The `Stop` decision of the `isComplexPtr` scan callback: stop on
a found variable-length struct or big variable-length union, and on
any pointer-typed argument other than the scanned root. -/
def complexStop (root : Arg) (a1 : Arg) (_ : ArgCtx) : Bool :=
  match a1.typ.kind with
  | .structK _ => a1.typ.isVarlen
  | .unionK n => a1.typ.isVarlen && n > 5
  | .ptrK _ => a1 ≠ root
  | _ => false

/-- `target.isComplexPtr(arg)`: false when the pointer has no subtree
or is not direction-in; true when its type is already the universal
pointer; otherwise scan the pointed-to subtree with `ForeachSubArg`,
pruning below nested pointers, for a complex node. -/
def isComplexPtr (arg : Arg) : Option Bool :=
  match arg with
  | .ptr t addr res vma =>
    match res with
    | none => some false
    | some r =>
      if t.dir ≠ .dirIn then some false
      else if isAnyPtr t then some true
      else
        match foreachSubArg (complexStop (.ptr t addr (some r) vma)) r with
        | none => none
        | some vs => some (vs.any (fun pr => complexNode pr.1))
  | _ => some false

mutual

/-- The spec's reachable-argument order: an argument, then its
reachable structure — a group's children in declared order, a
pointer's non-null subtree, a union's active option only. -/
def preorderArgs : Arg → List Arg
  | .group t inner => .group t inner :: preorderList inner
  | .ptr t addr (some r) vma => .ptr t addr (some r) vma :: preorderArgs r
  | .union t opt => .union t opt :: preorderArgs opt
  | a => [a]

/-- `preorderArgs` mapped over a list of arguments, concatenated. -/
def preorderList : List Arg → List Arg
  | [] => []
  | x :: xs => preorderArgs x ++ preorderList xs

end

/-- The spec's order of all arguments reachable from a call: the
return pseudo-argument's subtree first, then each positional
argument's subtree in declared order. -/
def callPreorder (c : Call) : List Arg :=
  (match c.ret with
   | some r => preorderArgs r
   | none => []) ++ preorderList c.args

mutual

/-- The group-size invariant, checked recursively over a whole
argument tree: every group's non-bitfield-middle children sum to
exactly the group's size when fixed-length, and to at most it when
variable-length. -/
def sizesOk : Arg → Bool
  | .group t inner =>
    (if t.isVarlen then sizeFields inner ≤ Arg.size (.group t inner)
     else sizeFields inner = Arg.size (.group t inner)) &&
    sizesOkList inner
  | .ptr _ _ (some r) _ => sizesOk r
  | .union _ opt => sizesOk opt
  | _ => true

/-- `sizesOk` over every member of a list. -/
def sizesOkList : List Arg → Bool
  | [] => true
  | x :: xs => sizesOk x && sizesOkList xs

end

/-- `sizesOk` over every argument reachable from a call. -/
def sizesOkCall (c : Call) : Bool :=
  (match c.ret with
   | some r => sizesOk r
   | none => true) &&
  sizesOkList c.args

mutual

/-- Well-formedness required of a subtree for squashing to complete,
minus the resource-width condition (tracked by `widthsOk`): no
bitfield-middle node is reached by the squash walk, pointer payloads
are exclusive and of squashable width, fixed-size unions are at least
as large as their active option (with sizes in `uint64` range), and
fixed-size groups satisfy the group-size invariant. -/
def wfSquash (tg : Target) : Arg → Bool
  | .const t _ => !t.bitfieldMid
  | .result t _ => !t.bitfieldMid
  | .data t _ _ => !t.bitfieldMid
  | .ptr t _ none _ => !t.bitfieldMid
  | .ptr t _ (some r) vma =>
    !t.bitfieldMid && vma = 0 && (t.size = tg.ptrSize || t.size = 8) &&
    wfSquash tg r
  | .union t opt =>
    !t.bitfieldMid &&
    (t.isVarlen || (opt.size ≤ t.size && t.size < 2 ^ 64)) &&
    wfSquash tg opt
  | .group t inner =>
    !t.bitfieldMid && (t.isVarlen || sizeFields inner = t.size) &&
    wfSquashFields tg inner

/-- `wfSquash` over the non-bitfield-middle members of a field list
(bitfield-middle fields are skipped by the squash walk entirely). -/
def wfSquashFields (tg : Target) : List Arg → Bool
  | [] => true
  | f :: fs => (f.typ.bitfieldMid || wfSquash tg f) && wfSquashFields tg fs

end

mutual

/-- Do all resource leaves reached by the squash walk — including
those inside recursively squashed nested pointers — have width 4 or
8? -/
def widthsOk : Arg → Bool
  | .result t _ => t.size = 4 || t.size = 8
  | .ptr _ _ (some r) _ => widthsOk r
  | .union _ opt => widthsOk opt
  | .group _ inner => widthsOkFields inner
  | _ => true

/-- `widthsOk` over the non-bitfield-middle members of a field list. -/
def widthsOkFields : List Arg → Bool
  | [] => true
  | f :: fs => (f.typ.bitfieldMid || widthsOk f) && widthsOkFields fs

end

mutual

/-- The resource leaves of a squashed subtree, in squash-walk order:
result arguments reached without crossing a nested pointer (whose own
leaves land in its separately squashed sequence). -/
def resLeaves : Arg → List Arg
  | .result t v => [.result t v]
  | .union _ opt => resLeaves opt
  | .group _ inner => resLeavesFields inner
  | _ => []

/-- `resLeaves` over the non-bitfield-middle members of a field list. -/
def resLeavesFields : List Arg → List Arg
  | [] => []
  | f :: fs =>
    (if f.typ.bitfieldMid then [] else resLeaves f) ++ resLeavesFields fs

end

/-- Kind erasure of one resource leaf: retype it to the width-matched
universal placeholder. -/
def retag : Arg → Arg
  | .result t v => .result (if t.size = 4 then anyRes32T else anyRes64T) v
  | a => a

/-- The placeholder elements of an output sequence: the union-wrapped
result arguments, in order. -/
def placeholders (es : List Arg) : List Arg :=
  es.filterMap (fun e =>
    match e with
    | .union _ (.result t v) => some (.result t v)
    | _ => none)

/-- Is this output element a byte-blob element? -/
def isBlobElem : Arg → Bool
  | .union _ (.data _ _ _) => true
  | _ => false

/-- Membership in the five-member universal vocabulary: every output
element is a union over `ANYUNION` whose option is a blob, a
universal pointer, or a width-typed resource placeholder. -/
def vocabElem : Arg → Bool
  | .union ut opt =>
    ut = anyUnionT &&
    (match opt with
     | .data dt _ _ => dt = anyBlobT
     | .ptr pt _ res _ => isAnyPtr pt && res ≠ none
     | .result rt _ => rt = anyRes32T || rt = anyRes64T
     | _ => false)
  | _ => false

/-- No two consecutive elements of the sequence are blob elements. -/
def noAdjacentBlobs : List Arg → Bool
  | [] => true
  | [_] => true
  | a :: b :: rest => !(isBlobElem a && isBlobElem b) && noAdjacentBlobs (b :: rest)

/-- The output-sequence invariant of the squash algorithm: every
element is in the universal vocabulary and blob elements never
touch. -/
def goodElems (es : List Arg) : Bool :=
  es.all vocabElem && noAdjacentBlobs es

/-- Total byte size of an element sequence. -/
def elemsSize (es : List Arg) : Nat :=
  match es with
  | [] => 0
  | e :: rest => e.size + elemsSize rest

mutual

/-- The complexity predicate as the spec states it: a node is
directly complex when it is a variable-length struct or a
variable-length union with more than five alternatives, or when a
child reached without descending below a nested pointer is. -/
def directlyComplex (a : Arg) : Bool :=
  complexNode a ||
    match a with
    | .group _ inner => directlyComplexList inner
    | .union _ opt => directlyComplex opt
    | _ => false

/-- Does some member of the list contain a directly complex node? -/
def directlyComplexList : List Arg → Bool
  | [] => false
  | x :: xs => directlyComplex x || directlyComplexList xs

end

/-- `IsComplex` as the spec states it: false for a pointer with no
subtree or a direction other than pure input; true for a declared
target type that is literally the universal array; otherwise true iff
the pointed-to subtree directly contains a complex node. -/
def specIsComplex (a : Arg) : Bool :=
  match a with
  | .ptr t _ res _ =>
    match res with
    | none => false
    | some r =>
      if t.dir ≠ .dirIn then false
      else if isAnyPtr t then true
      else directlyComplex r
  | _ => false

/-- One list extends another: the second is the first plus a suffix. -/
def listExtends {α : Type} (l1 l2 : List α) : Prop :=
  ∃ t, l2 = l1 ++ t

/-- Snapshot ordering for monotonicity: later snapshots have superset
string/filename sets and, per resource kind, an occurrence list that
extends the earlier one. -/
def AState.le (s1 s2 : AState) : Prop :=
  (∀ x, x ∈ s1.files → x ∈ s2.files) ∧
  (∀ x, x ∈ s1.strings → x ∈ s2.strings) ∧
  (∀ k, listExtends (resLookup s1.resources k) (resLookup s2.resources k))

/-- Does this argument contribute content `x` to the string set:
a data argument of buffer kind `bk`, direction not out, with
nonempty content `x`. -/
def contributes (bk : BufferKind) (a : Arg) (x : List Nat) : Bool :=
  match a with
  | .data t bytes _ =>
    t.kind = TypKind.bufferK bk && t.dir ≠ .dirOut && bytes ≠ [] && bytes = x
  | _ => false

/-- The claim's reading of the collected contents: every byte content
of a pure-input-direction data argument of buffer kind `bk`,
including empty contents. -/
def claimContent (bk : BufferKind) (a : Arg) (x : List Nat) : Bool :=
  match a with
  | .data t bytes _ =>
    t.kind = TypKind.bufferK bk && t.dir = .dirIn && bytes = x
  | _ => false

/-- The whole-program existence scan for bitfield constants, as the
spec states it. -/
def specBitmasks (p : Prog) : Bool :=
  p.calls.any (fun c => (callPreorder c).any (fun a =>
    match a with
    | .const t _ => t.bitfieldOff ≠ 0 || t.bitfieldLen ≠ 0
    | _ => false))

/-- The whole-program existence scan for checksum-typed arguments, as
the spec states it. -/
def specCsums (p : Prog) : Bool :=
  p.calls.any (fun c => (callPreorder c).any (fun a =>
    match a.typ.kind with
    | .csumK => true
    | _ => false))

mutual

theorem visits_noStop : ∀ (a : Arg) (ctx : ArgCtx) (l : List (Arg × ArgCtx)),
    foreachArgImpl noStop a ctx = some l → l.map Prod.fst = preorderArgs a
  | .const t v, ctx, l => by
    intro h
    simp [foreachArgImpl, noStop] at h
    simp [← h, preorderArgs]
  | .result t v, ctx, l => by
    intro h
    simp [foreachArgImpl, noStop] at h
    simp [← h, preorderArgs]
  | .data t bs sz, ctx, l => by
    intro h
    simp [foreachArgImpl, noStop] at h
    simp [← h, preorderArgs]
  | .ptr t addr none vma, ctx, l => by
    intro h
    simp [foreachArgImpl, noStop] at h
    simp [← h, preorderArgs]
  | .ptr t addr (some r) vma, ctx, l => by
    intro h
    simp only [foreachArgImpl, noStop, if_neg Bool.false_ne_true] at h
    cases hr : foreachArgImpl noStop r
        { ctx with base := some (.ptr t addr (some r) vma), offset := 0 } with
    | none => rw [hr] at h; exact absurd h (by simp)
    | some vs =>
      rw [hr] at h
      simp only [Option.some.injEq] at h
      subst h
      simp [preorderArgs, visits_noStop r _ vs hr]
  | .union t opt, ctx, l => by
    intro h
    simp only [foreachArgImpl, noStop, if_neg Bool.false_ne_true] at h
    cases hr : foreachArgImpl noStop opt ctx with
    | none => rw [hr] at h; exact absurd h (by simp)
    | some vs =>
      rw [hr] at h
      simp only [Option.some.injEq] at h
      subst h
      simp [preorderArgs, visits_noStop opt _ vs hr]
  | .group t inner, ctx, l => by
    intro h
    simp only [foreachArgImpl, noStop, if_neg Bool.false_ne_true] at h
    cases hr : foreachFields noStop inner
        (match t.kind with
         | .structK _ => { ctx with parent := some inner }
         | _ => ctx) with
    | none => rw [hr] at h; exact absurd h (by simp)
    | some p =>
      obtain ⟨vs, tot⟩ := p
      rw [hr] at h
      by_cases h1 : t.isVarlen ∧ tot > Arg.size (.group t inner)
      · simp [h1] at h
      · by_cases h2 : ¬ t.isVarlen ∧ tot ≠ Arg.size (.group t inner)
        · simp [h1, h2] at h
        · simp only [h1, h2, if_false, Option.some.injEq] at h
          subst h
          simp [preorderArgs, visitsFields_noStop inner _ vs tot hr]

theorem visitsFields_noStop : ∀ (fs : List Arg) (ctx : ArgCtx)
    (l : List (Arg × ArgCtx)) (tot : Nat),
    foreachFields noStop fs ctx = some (l, tot) →
    l.map Prod.fst = preorderList fs
  | [], ctx, l, tot => by
    intro h
    simp [foreachFields] at h
    simp [h.1.symm, preorderList]
  | x :: xs, ctx, l, tot => by
    intro h
    simp only [foreachFields] at h
    cases hx : foreachArgImpl noStop x ctx with
    | none => rw [hx] at h; exact absurd h (by simp)
    | some v =>
      rw [hx] at h
      cases hxs : foreachFields noStop xs
          { ctx with offset := ctx.offset + if x.typ.bitfieldMid then 0 else x.size } with
      | none => simp only [hxs] at h; exact absurd h (by simp)
      | some p =>
        obtain ⟨vs, tot'⟩ := p
        simp only [hxs, Option.some.injEq, Prod.mk.injEq] at h
        obtain ⟨h1, -⟩ := h
        subst h1
        simp [preorderList, visits_noStop x _ v hx,
          visitsFields_noStop xs _ vs tot' hxs]

end

theorem fields_total_size : ∀ (f : Arg → ArgCtx → Bool) (fs : List Arg)
    (ctx : ArgCtx) (l : List (Arg × ArgCtx)) (tot : Nat),
    foreachFields f fs ctx = some (l, tot) → tot = sizeFields fs := by
  intro f fs
  induction fs with
  | nil =>
    intro ctx l tot h
    simp [foreachFields] at h
    simp [← h.2, sizeFields]
  | cons x xs ih =>
    intro ctx l tot h
    simp only [foreachFields] at h
    cases hx : foreachArgImpl f x ctx with
    | none => rw [hx] at h; exact absurd h (by simp)
    | some v =>
      rw [hx] at h
      cases hxs : foreachFields f xs
          { ctx with offset := ctx.offset + if x.typ.bitfieldMid then 0 else x.size } with
      | none => simp only [hxs] at h; exact absurd h (by simp)
      | some p =>
        obtain ⟨vs, tot'⟩ := p
        simp only [hxs, Option.some.injEq, Prod.mk.injEq] at h
        rw [← h.2, ih _ _ _ hxs, sizeFields]

mutual

theorem foreach_total : ∀ (a : Arg), sizesOk a = true →
    ∀ (f : Arg → ArgCtx → Bool) (ctx : ArgCtx),
    (foreachArgImpl f a ctx).isSome = true
  | .const t v => by
    intro _ f ctx
    by_cases hf : f (.const t v) ctx <;> simp [foreachArgImpl, hf]
  | .result t v => by
    intro _ f ctx
    by_cases hf : f (.result t v) ctx <;> simp [foreachArgImpl, hf]
  | .data t bs sz => by
    intro _ f ctx
    by_cases hf : f (.data t bs sz) ctx <;> simp [foreachArgImpl, hf]
  | .ptr t addr none vma => by
    intro _ f ctx
    by_cases hf : f (.ptr t addr none vma) ctx <;> simp [foreachArgImpl, hf]
  | .ptr t addr (some r) vma => by
    intro hs f ctx
    by_cases hf : f (.ptr t addr (some r) vma) ctx
    · simp [foreachArgImpl, hf]
    · rw [sizesOk] at hs
      have h := foreach_total r hs f
        { ctx with base := some (.ptr t addr (some r) vma), offset := 0 }
      cases hvs : foreachArgImpl f r
          { ctx with base := some (.ptr t addr (some r) vma), offset := 0 } with
      | none => rw [hvs] at h; exact absurd h (by simp)
      | some vs => simp [foreachArgImpl, hf, hvs]
  | .union t opt => by
    intro hs f ctx
    by_cases hf : f (.union t opt) ctx
    · simp [foreachArgImpl, hf]
    · rw [sizesOk] at hs
      have h := foreach_total opt hs f ctx
      cases hvs : foreachArgImpl f opt ctx with
      | none => rw [hvs] at h; exact absurd h (by simp)
      | some vs => simp [foreachArgImpl, hf, hvs]
  | .group t inner => by
    intro hs f ctx
    by_cases hf : f (.group t inner) ctx
    · simp [foreachArgImpl, hf]
    · rw [sizesOk, Bool.and_eq_true] at hs
      obtain ⟨hinv, hlist⟩ := hs
      have h := fields_total inner hlist f
        (match t.kind with
         | .structK _ => { ctx with parent := some inner }
         | _ => ctx)
      cases hvs : foreachFields f inner
          (match t.kind with
           | .structK _ => { ctx with parent := some inner }
           | _ => ctx) with
      | none => rw [hvs] at h; exact absurd h (by simp)
      | some p =>
        obtain ⟨vs, tot⟩ := p
        have htot : tot = sizeFields inner :=
          fields_total_size f inner _ vs tot hvs
        subst htot
        simp only [foreachArgImpl, hf, if_false, Bool.false_eq_true, hvs]
        by_cases hv : t.isVarlen
        · have hle : sizeFields inner ≤ Arg.size (.group t inner) := by
            simpa [hv] using hinv
          simp [hv, Nat.not_lt.mpr hle]
        · have heq : sizeFields inner = Arg.size (.group t inner) := by
            simpa [hv] using hinv
          simp [hv, heq]

theorem fields_total : ∀ (fs : List Arg), sizesOkList fs = true →
    ∀ (f : Arg → ArgCtx → Bool) (ctx : ArgCtx),
    (foreachFields f fs ctx).isSome = true
  | [] => by
    intro _ f ctx
    simp [foreachFields]
  | x :: xs => by
    intro hs f ctx
    rw [sizesOkList, Bool.and_eq_true] at hs
    have hx := foreach_total x hs.1 f ctx
    cases hvx : foreachArgImpl f x ctx with
    | none => rw [hvx] at hx; exact absurd hx (by simp)
    | some v =>
      have hxs := fields_total xs hs.2 f
        { ctx with offset := ctx.offset + if x.typ.bitfieldMid then 0 else x.size }
      cases hvs : foreachFields f xs
          { ctx with offset := ctx.offset + if x.typ.bitfieldMid then 0 else x.size } with
      | none => rw [hvs] at hxs; exact absurd hxs (by simp)
      | some p =>
        obtain ⟨vs, tot⟩ := p
        simp [foreachFields, hvx, hvs]

end

theorem callArgs_visits_noStop : ∀ (args : List Arg) (ctx : ArgCtx)
    (l : List (Arg × ArgCtx)),
    foreachCallArgs noStop args ctx = some l →
    l.map Prod.fst = preorderList args := by
  intro args
  induction args with
  | nil =>
    intro ctx l h
    simp [foreachCallArgs] at h
    simp [← h, preorderList]
  | cons x xs ih =>
    intro ctx l h
    simp only [foreachCallArgs] at h
    cases hx : foreachArgImpl noStop x ctx with
    | none => rw [hx] at h; exact absurd h (by simp)
    | some v =>
      rw [hx] at h
      cases hxs : foreachCallArgs noStop xs ctx with
      | none => rw [hxs] at h; exact absurd h (by simp)
      | some vs =>
        rw [hxs] at h
        simp only [Option.some.injEq] at h
        subst h
        simp [preorderList, visits_noStop x _ v hx, ih _ vs hxs]

theorem callArgs_total (args : List Arg) (h : sizesOkList args = true)
    (f : Arg → ArgCtx → Bool) (ctx : ArgCtx) :
    (foreachCallArgs f args ctx).isSome = true := by
  induction args with
  | nil => simp [foreachCallArgs]
  | cons x xs ih =>
    rw [sizesOkList, Bool.and_eq_true] at h
    have hx := foreach_total x h.1 f ctx
    cases hvx : foreachArgImpl f x ctx with
    | none => rw [hvx] at hx; exact absurd hx (by simp)
    | some v =>
      have hxs := ih h.2
      cases hvs : foreachCallArgs f xs ctx with
      | none => rw [hvs] at hxs; exact absurd hxs (by simp)
      | some vs => simp [foreachCallArgs, hvx, hvs]

theorem foreachArg_visits_noStop (c : Call) (l : List (Arg × ArgCtx))
    (h : foreachArg noStop c = some l) :
    l.map Prod.fst = callPreorder c := by
  unfold foreachArg at h
  cases c with
  | mk name args ret =>
    cases ret with
    | none =>
      simp only at h
      cases ha : foreachCallArgs noStop args { parent := some args } with
      | none => rw [ha] at h; exact absurd h (by simp)
      | some av =>
        rw [ha] at h
        simp only [Option.some.injEq] at h
        subst h
        simp [callPreorder, callArgs_visits_noStop args _ av ha]
    | some r =>
      simp only at h
      cases hr : foreachArgImpl noStop r {} with
      | none => rw [hr] at h; exact absurd h (by simp)
      | some rv =>
        rw [hr] at h
        cases ha : foreachCallArgs noStop args { parent := some args } with
        | none => rw [ha] at h; exact absurd h (by simp)
        | some av =>
          rw [ha] at h
          simp only [Option.some.injEq] at h
          subst h
          simp [callPreorder, visits_noStop r _ rv hr,
            callArgs_visits_noStop args _ av ha]

theorem foreachArg_total (c : Call) (h : sizesOkCall c = true)
    (f : Arg → ArgCtx → Bool) :
    (foreachArg f c).isSome = true := by
  rw [sizesOkCall, Bool.and_eq_true] at h
  unfold foreachArg
  cases c with
  | mk name args ret =>
    have hargs := callArgs_total args h.2 f { parent := some args }
    cases ret with
    | none =>
      simp only at hargs ⊢
      cases ha : foreachCallArgs f args { parent := some args } with
      | none => rw [ha] at hargs; exact absurd hargs (by simp)
      | some av => simp [ha]
    | some r =>
      have hr := foreach_total r h.1 f {}
      simp only at hargs ⊢
      cases hvr : foreachArgImpl f r {} with
      | none => rw [hvr] at hr; exact absurd hr (by simp)
      | some rv =>
        cases ha : foreachCallArgs f args { parent := some args } with
        | none => rw [ha] at hargs; exact absurd hargs (by simp)
        | some av => simp [hvr, ha]

/-- The local group-size invariant the traversal re-validates. -/
def groupInv (g : Arg) : Prop :=
  match g with
  | .group t inner =>
    if t.isVarlen then sizeFields inner ≤ Arg.size (.group t inner)
    else sizeFields inner = Arg.size (.group t inner)
  | _ => True

mutual

theorem sizesOk_preorder : ∀ (a : Arg), sizesOk a = true →
    ∀ g ∈ preorderArgs a, groupInv g
  | .const t v => by
    intro _ g hg
    simp [preorderArgs] at hg
    simp [hg, groupInv]
  | .result t v => by
    intro _ g hg
    simp [preorderArgs] at hg
    simp [hg, groupInv]
  | .data t bs sz => by
    intro _ g hg
    simp [preorderArgs] at hg
    simp [hg, groupInv]
  | .ptr t addr none vma => by
    intro _ g hg
    simp [preorderArgs] at hg
    simp [hg, groupInv]
  | .ptr t addr (some r) vma => by
    intro hs g hg
    rw [sizesOk] at hs
    rw [preorderArgs] at hg
    rcases List.mem_cons.mp hg with h | h
    · simp [h, groupInv]
    · exact sizesOk_preorder r hs g h
  | .union t opt => by
    intro hs g hg
    rw [sizesOk] at hs
    rw [preorderArgs] at hg
    rcases List.mem_cons.mp hg with h | h
    · simp [h, groupInv]
    · exact sizesOk_preorder opt hs g h
  | .group t inner => by
    intro hs g hg
    rw [sizesOk, Bool.and_eq_true] at hs
    rw [preorderArgs] at hg
    rcases List.mem_cons.mp hg with h | h
    · subst h
      rw [groupInv]
      by_cases hv : t.isVarlen
      · simp only [hv, if_true]
        simpa [hv] using hs.1
      · simp only [hv, if_false]
        simpa [hv] using hs.1
    · exact sizesOkList_preorder inner hs.2 g h

theorem sizesOkList_preorder : ∀ (fs : List Arg), sizesOkList fs = true →
    ∀ g ∈ preorderList fs, groupInv g
  | [] => by
    intro _ g hg
    simp [preorderList] at hg
  | x :: xs => by
    intro hs g hg
    rw [sizesOkList, Bool.and_eq_true] at hs
    rw [preorderList] at hg
    rcases List.mem_append.mp hg with h | h
    · exact sizesOk_preorder x hs.1 g h
    · exact sizesOkList_preorder xs hs.2 g h

end

/-! Concrete fixtures, used by the witness theorems. -/

/-- An amd64-like target. -/
def exTarget : Target := { ptrSize := 8, pageSize := 4096, numPages := 16 }

/-- A plain 4-byte input integer type. -/
def exIntT : Typ :=
  { name := "f1", size := 4, dir := .dirIn, isVarlen := false,
    isOptional := false, bitfieldOff := 0, bitfieldLen := 0,
    bitfieldMid := false, kind := .intK }

/-- An output-direction 4-byte resource type of kind `fd`. -/
def exFdOutT : Typ :=
  { name := "rfd", size := 4, dir := .dirOut, isVarlen := false,
    isOptional := false, bitfieldOff := 0, bitfieldLen := 0,
    bitfieldMid := false, kind := .resourceK "fd" }

/-- An input-direction 4-byte resource type of kind `fd`. -/
def exFdInT : Typ :=
  { name := "fd", size := 4, dir := .dirIn, isVarlen := false,
    isOptional := false, bitfieldOff := 0, bitfieldLen := 0,
    bitfieldMid := false, kind := .resourceK "fd" }

/-- A fixed 8-byte input struct type. -/
def exStructT : Typ :=
  { name := "s", size := 8, dir := .dirIn, isVarlen := false,
    isOptional := false, bitfieldOff := 0, bitfieldLen := 0,
    bitfieldMid := false, kind := .structK 0 }

/-- A variable-length input struct type. -/
def exVarStructT : Typ :=
  { name := "vs", size := 0, dir := .dirIn, isVarlen := true,
    isOptional := false, bitfieldOff := 0, bitfieldLen := 0,
    bitfieldMid := false, kind := .structK 0 }

/-- An 8-byte input pointer type (to a non-universal element type). -/
def exPtrT : Typ :=
  { name := "p", size := 8, dir := .dirIn, isVarlen := false,
    isOptional := false, bitfieldOff := 0, bitfieldLen := 0,
    bitfieldMid := false, kind := .ptrK 7 }

/-- A variable-length input string buffer type. -/
def exStrT : Typ :=
  { name := "b", size := 0, dir := .dirIn, isVarlen := true,
    isOptional := false, bitfieldOff := 0, bitfieldLen := 0,
    bitfieldMid := false, kind := .bufferK .string }

/-- A variable-length input filename buffer type. -/
def exFileT : Typ := { exStrT with kind := .bufferK .filename }

/-- A pointed-to struct mixing a constant and a resource. -/
def exStructArg : Arg :=
  .group exStructT [.const exIntT 0x11223344, .result exFdInT 99]

/-- A pointer argument rooting `exStructArg`. -/
def exPtrArg : Arg := .ptr exPtrT 0x1000 (some exStructArg) 0

/-- A call with one pointer argument and no return value. -/
def exCall : Call := { name := "c1", args := [exPtrArg], ret := none }

/-! Claim theorems. -/

/-- C2: for every call whose argument trees satisfy the group-size
invariant, `ForeachArg` succeeds and visits exactly the reachable
arguments, in the deterministic spec order — return pseudo-argument
first, then positional arguments in declared order, descending into
group children in order, into a pointer's non-null subtree, and into
a union's active option only; and a callback that sets the `Stop`
flag on an argument suppresses descent into that argument's
children (the visit list of that subtree is just the argument
itself).  Repeated runs are identical because the traversal is a
pure function of the unmutated tree. -/
theorem foreachArg_traversal_contract (c : Call) (h : sizesOkCall c = true) :
    (∃ l, foreachArg noStop c = some l ∧ l.map Prod.fst = callPreorder c) ∧
    (∀ (f : Arg → ArgCtx → Bool) (a : Arg) (ctx : ArgCtx),
      f a ctx = true → foreachArgImpl f a ctx = some [(a, ctx)]) := by
  constructor
  · have hsome := foreachArg_total c h noStop
    cases hl : foreachArg noStop c with
    | none => rw [hl] at hsome; exact absurd hsome (by simp)
    | some l => exact ⟨l, rfl, foreachArg_visits_noStop c l hl⟩
  · intro f a ctx hf
    cases a with
    | const t v => simp [foreachArgImpl, hf]
    | result t v => simp [foreachArgImpl, hf]
    | ptr t addr res vma => cases res <;> simp [foreachArgImpl, hf]
    | data t bs sz => simp [foreachArgImpl, hf]
    | group t inner => simp [foreachArgImpl, hf]
    | union t opt => simp [foreachArgImpl, hf]

theorem foreachArg_traversal_contract_witness :
    (∃ l, foreachArg noStop exCall = some l ∧
       l.map Prod.fst = callPreorder exCall) ∧
    (∀ (f : Arg → ArgCtx → Bool) (a : Arg) (ctx : ArgCtx),
      f a ctx = true → foreachArgImpl f a ctx = some [(a, ctx)]) :=
  foreachArg_traversal_contract exCall (by decide)

/-- C6: for every call whose argument trees satisfy the group-size
invariant, every group in the reachable argument set has
non-bitfield-middle children summing to exactly its size when
fixed-length and to at most its size when variable-length, and the
traversal's internal-consistency failure branch is unreachable for
every callback (`ForeachArg` never returns the panic value). -/
theorem group_size_invariant_validated (c : Call) (h : sizesOkCall c = true) :
    (∀ g ∈ callPreorder c, groupInv g) ∧
    (∀ f : Arg → ArgCtx → Bool, (foreachArg f c).isSome = true) := by
  constructor
  · intro g hg
    rw [sizesOkCall, Bool.and_eq_true] at h
    rw [callPreorder] at hg
    rcases List.mem_append.mp hg with h1 | h1
    · cases hr : c.ret with
      | none => rw [hr] at h1; simp at h1
      | some r =>
        rw [hr] at h1
        simp only at h1
        have := h.1
        rw [hr] at this
        exact sizesOk_preorder r this g h1
    · exact sizesOkList_preorder c.args h.2 g h1
  · exact fun f => foreachArg_total c h f

theorem group_size_invariant_validated_witness :
    (∀ g ∈ callPreorder exCall, groupInv g) ∧
    (∀ f : Arg → ArgCtx → Bool, (foreachArg f exCall).isSome = true) :=
  group_size_invariant_validated exCall (by decide)

/-! Analysis lemmas: monotonicity and cutoff independence. -/

theorem listExtends_refl {α : Type} (l : List α) : listExtends l l :=
  ⟨[], by simp⟩

theorem listExtends_trans {α : Type} {l1 l2 l3 : List α}
    (h1 : listExtends l1 l2) (h2 : listExtends l2 l3) : listExtends l1 l3 := by
  obtain ⟨t1, ht1⟩ := h1
  obtain ⟨t2, ht2⟩ := h2
  exact ⟨t1 ++ t2, by simp [ht2, ht1]⟩

theorem listExtends_snoc {α : Type} (l : List α) (a : α) :
    listExtends l (l ++ [a]) :=
  ⟨[a], rfl⟩

theorem AState.le_refl (s : AState) : AState.le s s :=
  ⟨fun _ h => h, fun _ h => h, fun _ => listExtends_refl _⟩

theorem AState.le_trans {s1 s2 s3 : AState}
    (h1 : AState.le s1 s2) (h2 : AState.le s2 s3) : AState.le s1 s3 :=
  ⟨fun x hx => h2.1 x (h1.1 x hx),
   fun x hx => h2.2.1 x (h1.2.1 x hx),
   fun k => listExtends_trans (h1.2.2 k) (h2.2.2 k)⟩

theorem mem_setInsert {s : List (List Nat)} {x y : List Nat} (h : x ∈ s) :
    x ∈ setInsert s y := by
  unfold setInsert
  by_cases hy : y ∈ s
  · simpa [hy]
  · simp [hy, List.mem_append, h]

theorem resLookup_resAdd (m : List (String × List Arg)) (k k' : String)
    (a : Arg) :
    resLookup (resAdd m k a) k' =
      if k' = k then resLookup m k' ++ [a] else resLookup m k' := by
  induction m with
  | nil =>
    by_cases h : k' = k
    · subst h
      simp [resAdd, resLookup]
    · have h' : ¬ k = k' := fun e => h e.symm
      simp [resAdd, resLookup, h, h']
  | cons p rest ih =>
    obtain ⟨k0, l0⟩ := p
    by_cases h0 : k0 = k
    · subst h0
      by_cases h : k' = k0
      · subst h
        simp [resAdd, resLookup]
      · have h' : ¬ k0 = k' := fun e => h e.symm
        simp [resAdd, resLookup, h, h']
    · by_cases h : k0 = k'
      · have h2 : ¬ k' = k := fun e => h0 (h.trans e)
        simp [resAdd, resLookup, h0, h, h2]
      · simp [resAdd, resLookup, h0, h, ih]

theorem le_resAdd (s : AState) (k : String) (a : Arg) :
    AState.le s { s with resources := resAdd s.resources k a } := by
  refine ⟨fun x h => h, fun x h => h, fun k' => ?_⟩
  simp only [resLookup_resAdd]
  by_cases h : k' = k
  · simp only [h, if_pos rfl]
    exact listExtends_snoc _ _
  · simp only [if_neg h]
    exact listExtends_refl _

theorem analyzePtr_fields (tg : Target) (s : AState) (a : Arg) (s1 : AState)
    (h : analyzePtr tg s a = some s1) :
    s1.files = s.files ∧ s1.strings = s.strings ∧ s1.resources = s.resources := by
  cases a with
  | ptr t addr res vma =>
    simp only [analyzePtr] at h
    by_cases hn : Arg.isNullPtr (.ptr t addr res vma) = true
    · rw [if_pos hn] at h
      cases h; exact ⟨rfl, rfl, rfl⟩
    · rw [if_neg hn] at h
      by_cases hv : vma ≠ 0
      · rw [if_pos hv] at h
        cases h; exact ⟨rfl, rfl, rfl⟩
      · rw [if_neg hv] at h
        cases res with
        | none => exact absurd h (by simp)
        | some r =>
          simp only [Option.some.injEq] at h
          rw [← h]
          exact ⟨rfl, rfl, rfl⟩
  | const t v =>
    simp only [analyzePtr] at h
    cases h; exact ⟨rfl, rfl, rfl⟩
  | result t v =>
    simp only [analyzePtr] at h
    cases h; exact ⟨rfl, rfl, rfl⟩
  | data t bs sz =>
    simp only [analyzePtr] at h
    cases h; exact ⟨rfl, rfl, rfl⟩
  | group t inner =>
    simp only [analyzePtr] at h
    cases h; exact ⟨rfl, rfl, rfl⟩
  | union t opt =>
    simp only [analyzePtr] at h
    cases h; exact ⟨rfl, rfl, rfl⟩

theorem analyzePtr_le (tg : Target) (s : AState) (a : Arg) (s1 : AState)
    (h : analyzePtr tg s a = some s1) : AState.le s s1 := by
  obtain ⟨hf, hs, hr⟩ := analyzePtr_fields tg s a s1 h
  exact ⟨fun x hx => hf ▸ hx, fun x hx => hs ▸ hx,
    fun k => hr ▸ listExtends_refl _⟩

theorem analyzeTyp_le (s1 : AState) (a : Arg) (s' : AState)
    (h : analyzeTyp s1 a = some s') : AState.le s1 s' := by
  unfold analyzeTyp at h
  cases hk : a.typ.kind with
  | resourceK rname =>
    rw [hk] at h
    dsimp only at h
    by_cases hd : a.typ.dir ≠ .dirIn
    · rw [if_pos hd] at h
      simp only [Option.some.injEq] at h
      rw [← h]
      exact le_resAdd s1 rname a
    · rw [if_neg hd] at h
      cases h
      exact AState.le_refl s1
  | bufferK bk =>
    rw [hk] at h
    dsimp only at h
    cases a with
    | data t bytes sz =>
      dsimp only at h
      by_cases hc : t.dir ≠ .dirOut ∧ bytes ≠ []
      · rw [if_pos hc] at h
        cases bk with
        | string =>
          simp only [Option.some.injEq] at h
          rw [← h]
          exact ⟨fun x hx => hx, fun x hx => mem_setInsert hx,
            fun k => listExtends_refl _⟩
        | filename =>
          simp only [Option.some.injEq] at h
          rw [← h]
          exact ⟨fun x hx => mem_setInsert hx, fun x hx => hx,
            fun k => listExtends_refl _⟩
        | blob =>
          simp only [Option.some.injEq] at h
          rw [← h]
          exact AState.le_refl s1
      · rw [if_neg hc] at h
        cases h
        exact AState.le_refl s1
    | const t v => exact absurd h (by simp)
    | result t v => exact absurd h (by simp)
    | ptr t addr res vma => exact absurd h (by simp)
    | group t inner => exact absurd h (by simp)
    | union t opt => exact absurd h (by simp)
  | structK align => rw [hk] at h; cases h; exact AState.le_refl s1
  | arrayK => rw [hk] at h; cases h; exact AState.le_refl s1
  | unionK n => rw [hk] at h; cases h; exact AState.le_refl s1
  | ptrK u => rw [hk] at h; cases h; exact AState.le_refl s1
  | csumK => rw [hk] at h; cases h; exact AState.le_refl s1
  | constK p => rw [hk] at h; cases h; exact AState.le_refl s1
  | intK => rw [hk] at h; cases h; exact AState.le_refl s1

theorem analyzeArg_le (tg : Target) (s : AState) (a : Arg) (s' : AState)
    (h : analyzeArg tg s a = some s') : AState.le s s' := by
  unfold analyzeArg at h
  cases h1 : analyzePtr tg s a with
  | none => rw [h1] at h; exact absurd h (by simp)
  | some s1 =>
    rw [h1] at h
    exact AState.le_trans (analyzePtr_le tg s a s1 h1) (analyzeTyp_le s1 a s' h)

theorem foldlM_le {β : Type} (step : AState → β → Option AState)
    (hstep : ∀ s b s', step s b = some s' → AState.le s s') :
    ∀ (l : List β) (s s' : AState), l.foldlM step s = some s' → AState.le s s' := by
  intro l
  induction l with
  | nil =>
    intro s s' h
    simp [List.foldlM] at h
    exact h ▸ AState.le_refl s
  | cons b bs ih =>
    intro s s' h
    rw [List.foldlM_cons] at h
    cases hb : step s b with
    | none => rw [hb] at h; exact absurd h (by simp)
    | some s1 =>
      rw [hb] at h
      simp only [Option.bind_eq_bind, Option.some_bind] at h
      exact AState.le_trans (hstep s b s1 hb) (ih s1 s' h)

theorem stateAnalyzeCall_le (tg : Target) (s : AState) (c : Call) (s' : AState)
    (h : stateAnalyzeCall tg s c = some s') : AState.le s s' := by
  unfold stateAnalyzeCall at h
  cases hv : foreachArg noStop c with
  | none => rw [hv] at h; exact absurd h (by simp)
  | some vs =>
    rw [hv] at h
    exact foldlM_le _ (fun s1 pr s2 hstep => analyzeArg_le tg s1 pr.1 s2 hstep)
      vs s s' h

theorem calls_foldlM_le (tg : Target) :
    ∀ (cs : List Call) (s s' : AState),
    cs.foldlM (stateAnalyzeCall tg) s = some s' → AState.le s s' :=
  fun cs s s' h =>
    foldlM_le _ (fun s1 c s2 hstep => stateAnalyzeCall_le tg s1 c s2 hstep) cs s s' h

theorem takeWhile_false_head {α : Type} (p : α → Bool) :
    ∀ (l1 : List α), (∀ x ∈ l1, p x = true) → ∀ (c : α), p c = false →
    ∀ (l2 : List α), (l1 ++ c :: l2).takeWhile p = l1 := by
  intro l1
  induction l1 with
  | nil =>
    intro _ c hc l2
    simp [List.takeWhile_cons, hc]
  | cons a as ih =>
    intro hall c hc l2
    have ha : p a = true := hall a (List.mem_cons_self a as)
    have has : ∀ x ∈ as, p x = true :=
      fun x hx => hall x (List.mem_cons_of_mem a hx)
    rw [List.cons_append, List.takeWhile_cons, ha, ih has c hc l2]
    simp

theorem takeWhile_ne_of_not_mem {α : Type} [DecidableEq α]
    (l1 : List α) (c : α) (h : c ∉ l1) (l2 : List α) :
    (l1 ++ c :: l2).takeWhile (fun x => x ≠ c) = l1 := by
  apply takeWhile_false_head
  · intro x hx
    simp only [decide_eq_true_eq]
    exact fun e => h (e ▸ hx)
  · simp

theorem option_foldlM_append {α : Type} (step : AState → α → Option AState) :
    ∀ (l1 l2 : List α) (s : AState),
    (l1 ++ l2).foldlM step s =
      match l1.foldlM step s with
      | none => none
      | some s1 => l2.foldlM step s1 := by
  intro l1
  induction l1 with
  | nil => intro l2 s; simp
  | cons a as ih =>
    intro l2 s
    rw [List.cons_append, List.foldlM_cons, List.foldlM_cons]
    cases ha : step s a with
    | none => simp [ha]
    | some s1 =>
      simp only [ha, Option.bind_eq_bind, Option.some_bind]
      rw [ih l2 s1]

/-- A call producing one `fd` resource. -/
def exCallA : Call := { name := "A", args := [.result exFdOutT 1], ret := none }

/-- A call consuming one `fd` resource. -/
def exCallB : Call := { name := "B", args := [.result exFdInT 1], ret := none }

/-- A third distinct call. -/
def exCallC : Call := { name := "C", args := [], ret := none }

/-- The snapshot before `exCallA` in `[exCallA, exCallB]`: empty. -/
def exSnapA : AState := {}

/-- The snapshot before `exCallB` in `[exCallA, exCallB]`: one
produced `fd` occurrence. -/
def exSnapB : AState :=
  { files := [], resources := [("fd", [.result exFdOutT 1])],
    strings := [], ma := [], va := [] }

/-- C3: the snapshot `Analyze(P, c)` depends only on the calls
strictly before (the first occurrence of) `c`: programs sharing the
prefix before `c` — in particular a program and its truncation
immediately after `c` (take the suffix empty) — yield identical
snapshots, whatever follows `c`. -/
theorem analyze_cutoff_independent (tg : Target) (l1 l2 l3 : List Call)
    (c : Call) (h : c ∉ l1) :
    analyze { target := tg, calls := l1 ++ c :: l2 } c =
    analyze { target := tg, calls := l1 ++ c :: l3 } c := by
  unfold analyze
  simp only
  rw [takeWhile_ne_of_not_mem l1 c h l2, takeWhile_ne_of_not_mem l1 c h l3]

theorem analyze_cutoff_independent_witness :
    analyze { target := exTarget, calls := [exCallA] ++ exCallB :: [exCallC] }
      exCallB =
    analyze { target := exTarget, calls := [exCallA] ++ exCallB :: [] }
      exCallB :=
  analyze_cutoff_independent exTarget [exCallA] [exCallC] [] exCallB (by decide)

/-- C4: for calls `ci` strictly before `ck` in program order (first
occurrences), the snapshot at `ck` dominates the snapshot at `ci`:
its filename and string sets are supersets, and each resource kind's
ordered occurrence list extends the earlier one. -/
theorem analyze_monotone (tg : Target) (l1 l2 l3 : List Call) (ci ck : Call)
    (h1 : ci ∉ l1) (h2 : ck ∉ l1 ++ ci :: l2) (s1 s2 : AState)
    (ha1 : analyze { target := tg, calls := l1 ++ ci :: (l2 ++ ck :: l3) } ci
      = some s1)
    (ha2 : analyze { target := tg, calls := l1 ++ ci :: (l2 ++ ck :: l3) } ck
      = some s2) :
    AState.le s1 s2 := by
  unfold analyze at ha1 ha2
  simp only at ha1 ha2
  rw [takeWhile_ne_of_not_mem l1 ci h1 (l2 ++ ck :: l3)] at ha1
  have hlist : l1 ++ ci :: (l2 ++ ck :: l3) = (l1 ++ ci :: l2) ++ ck :: l3 := by
    simp
  rw [hlist, takeWhile_ne_of_not_mem (l1 ++ ci :: l2) ck h2 l3] at ha2
  rw [option_foldlM_append (stateAnalyzeCall tg) l1 (ci :: l2) {}] at ha2
  rw [ha1] at ha2
  exact calls_foldlM_le tg (ci :: l2) s1 s2 ha2

theorem analyze_monotone_witness : AState.le exSnapA exSnapB :=
  analyze_monotone exTarget [] [] [] exCallA exCallB (by decide) (by decide)
    exSnapA exSnapB (by rfl) (by rfl)

/-! Feature-scan lemmas. -/

/-- Is this argument a scalar constant with a nonzero bitfield offset
or length? -/
def isBitfieldConst (a : Arg) : Bool :=
  match a with
  | .const t _ => t.bitfieldOff ≠ 0 || t.bitfieldLen ≠ 0
  | _ => false

/-- Is this argument's type the checksum kind? -/
def isCsumArg (a : Arg) : Bool :=
  match a.typ.kind with
  | .csumK => true
  | _ => false

theorem featuresStep_eq (acc : Bool × Bool) (a : Arg) :
    featuresStep acc a = (acc.1 || isBitfieldConst a, acc.2 || isCsumArg a) := by
  unfold featuresStep isBitfieldConst isCsumArg
  cases a with
  | const t v =>
    cases hk : t.kind <;> simp [Arg.typ, hk]
  | result t v =>
    cases hk : t.kind <;> simp [Arg.typ, hk]
  | ptr t addr res vma =>
    cases hk : t.kind <;> simp [Arg.typ, hk]
  | data t bs sz =>
    cases hk : t.kind <;> simp [Arg.typ, hk]
  | group t inner =>
    cases hk : t.kind <;> simp [Arg.typ, hk]
  | union t opt =>
    cases hk : t.kind <;> simp [Arg.typ, hk]

theorem featuresFold (l : List (Arg × ArgCtx)) :
    ∀ acc : Bool × Bool,
    l.foldl (fun a pr => featuresStep a pr.1) acc =
      (acc.1 || l.any (fun pr => isBitfieldConst pr.1),
       acc.2 || l.any (fun pr => isCsumArg pr.1)) := by
  induction l with
  | nil => intro acc; simp
  | cons pr rest ih =>
    intro acc
    rw [List.foldl_cons, featuresStep_eq, ih, List.any_cons, List.any_cons]
    simp [Bool.or_assoc]

theorem any_map_fst {β : Type} (l : List (Arg × β)) (p : Arg → Bool) :
    l.any (fun pr => p pr.1) = (l.map Prod.fst).any p := by
  induction l with
  | nil => rfl
  | cons x xs ih => simp [List.any_cons, ih]

/-- Does a call contain a bitfield constant argument? -/
def callHasBitfield (c : Call) : Bool :=
  (callPreorder c).any isBitfieldConst

/-- Does a call contain a checksum-typed argument? -/
def callHasCsum (c : Call) : Bool :=
  (callPreorder c).any isCsumArg

theorem requiredFeatures_fold :
    ∀ (cs : List Call) (acc : Bool × Bool) (r : Bool × Bool),
    cs.foldlM
      (fun acc c =>
        match foreachArg noStop c with
        | none => none
        | some vs => some (vs.foldl (fun a pr => featuresStep a pr.1) acc))
      acc = some r →
    r = (acc.1 || cs.any callHasBitfield, acc.2 || cs.any callHasCsum) := by
  intro cs
  induction cs with
  | nil =>
    intro acc r h
    simp [List.foldlM] at h
    simp [← h]
  | cons c rest ih =>
    intro acc r h
    rw [List.foldlM_cons] at h
    cases hv : foreachArg noStop c with
    | none => rw [hv] at h; exact absurd h (by simp)
    | some vs =>
      rw [hv] at h
      simp only [Option.bind_eq_bind, Option.some_bind] at h
      have hvis := foreachArg_visits_noStop c vs hv
      have hany1 : vs.any (fun pr => isBitfieldConst pr.1) = callHasBitfield c := by
        rw [callHasBitfield, ← hvis]
        exact any_map_fst vs _
      have hany2 : vs.any (fun pr => isCsumArg pr.1) = callHasCsum c := by
        rw [callHasCsum, ← hvis]
        exact any_map_fst vs _
      rw [featuresFold, hany1, hany2] at h
      rw [ih _ r h]
      simp [Bool.or_assoc]

/-- C9: `RequiredFeatures` scans the entire program with no cutoff
and returns exactly the two independent existence booleans: some
scalar constant argument has a nonzero bitfield offset or length, and
some argument's type is the checksum kind. -/
theorem requiredFeatures_contract (p : Prog) (r : Bool × Bool)
    (h : requiredFeatures p = some r) :
    r = (specBitmasks p, specCsums p) := by
  unfold requiredFeatures at h
  have := requiredFeatures_fold p.calls (false, false) r h
  rw [this]
  unfold specBitmasks specCsums callHasBitfield callHasCsum
  simp only [Bool.false_or]
  constructor

/-- A 4-byte constant type carrying bitfield offset 2 and length 3. -/
def exBitfieldT : Typ :=
  { name := "bf", size := 4, dir := .dirIn, isVarlen := false,
    isOptional := false, bitfieldOff := 2, bitfieldLen := 3,
    bitfieldMid := false, kind := .intK }

/-- A call with one bitfield constant argument and no checksum. -/
def exBitfieldCall : Call :=
  { name := "bf", args := [.const exBitfieldT 1], ret := none }

theorem requiredFeatures_contract_witness :
    (true, false) =
      (specBitmasks { target := exTarget, calls := [exBitfieldCall] },
       specCsums { target := exTarget, calls := [exBitfieldCall] }) :=
  requiredFeatures_contract { target := exTarget, calls := [exBitfieldCall] }
    (true, false) (by rfl)

/-! String/filename collection lemmas. -/

theorem mem_setInsert_iff (s : List (List Nat)) (x y : List Nat) :
    x ∈ setInsert s y ↔ x ∈ s ∨ x = y := by
  unfold setInsert
  by_cases hy : y ∈ s
  · simp only [hy, if_pos]
    constructor
    · exact Or.inl
    · rintro (h | h)
      · exact h
      · exact h ▸ hy
  · simp [hy, List.mem_append]

theorem contributes_false (bk : BufferKind) (a : Arg) (x : List Nat)
    (hk : a.typ.kind ≠ .bufferK bk) : contributes bk a x = false := by
  cases a with
  | data t bytes sz =>
    simp only [Arg.typ] at hk
    simp [contributes, hk]
  | const t v => rfl
  | result t v => rfl
  | ptr t addr res vma => rfl
  | group t inner => rfl
  | union t opt => rfl

theorem analyzeTyp_contents (s1 : AState) (a : Arg) (s' : AState)
    (h : analyzeTyp s1 a = some s') (x : List Nat) :
    (x ∈ s'.strings ↔ x ∈ s1.strings ∨ contributes .string a x = true) ∧
    (x ∈ s'.files ↔ x ∈ s1.files ∨ contributes .filename a x = true) := by
  unfold analyzeTyp at h
  cases hk : a.typ.kind with
  | bufferK bk =>
    rw [hk] at h
    dsimp only at h
    cases a with
    | data t bytes sz =>
      simp only [Arg.typ] at hk
      dsimp only at h
      by_cases hc : t.dir ≠ .dirOut ∧ bytes ≠ []
      · rw [if_pos hc] at h
        cases bk with
        | string =>
          simp only [Option.some.injEq] at h
          rw [← h]
          constructor
          · simp only [mem_setInsert_iff]
            constructor
            · rintro (hx | hx)
              · exact Or.inl hx
              · refine Or.inr ?_
                simp [contributes, hk, hc.1, hc.2, hx]
            · rintro (hx | hx)
              · exact Or.inl hx
              · simp only [contributes, Bool.and_eq_true, decide_eq_true_eq] at hx
                exact Or.inr hx.2.symm
          · have hf : contributes .filename (.data t bytes sz) x = false := by
              apply contributes_false
              simp [Arg.typ, hk]
            simp [hf]
        | filename =>
          simp only [Option.some.injEq] at h
          rw [← h]
          constructor
          · have hf : contributes .string (.data t bytes sz) x = false := by
              apply contributes_false
              simp [Arg.typ, hk]
            simp [hf]
          · simp only [mem_setInsert_iff]
            constructor
            · rintro (hx | hx)
              · exact Or.inl hx
              · refine Or.inr ?_
                simp [contributes, hk, hc.1, hc.2, hx]
            · rintro (hx | hx)
              · exact Or.inl hx
              · simp only [contributes, Bool.and_eq_true, decide_eq_true_eq] at hx
                exact Or.inr hx.2.symm
        | blob =>
          simp only [Option.some.injEq] at h
          rw [← h]
          have hs : contributes .string (.data t bytes sz) x = false := by
            apply contributes_false
            simp [Arg.typ, hk]
          have hf : contributes .filename (.data t bytes sz) x = false := by
            apply contributes_false
            simp [Arg.typ, hk]
          simp [hs, hf]
      · rw [if_neg hc] at h
        cases h
        have hcon : ∀ bk', contributes bk' (.data t bytes sz) x = false := by
          intro bk'
          rcases not_and_or.mp hc with hd | hb
          · simp only [not_not] at hd
            simp [contributes, hd]
          · simp only [not_not] at hb
            simp [contributes, hb]
        simp [hcon]
    | const t v => exact absurd h (by simp)
    | result t v => exact absurd h (by simp)
    | ptr t addr res vma => exact absurd h (by simp)
    | group t inner => exact absurd h (by simp)
    | union t opt => exact absurd h (by simp)
  | resourceK rname =>
    rw [hk] at h
    dsimp only at h
    have hs : contributes .string a x = false :=
      contributes_false _ a x (by simp [hk])
    have hf : contributes .filename a x = false :=
      contributes_false _ a x (by simp [hk])
    by_cases hd : a.typ.dir ≠ .dirIn
    · rw [if_pos hd] at h
      simp only [Option.some.injEq] at h
      rw [← h]
      simp [hs, hf]
    · rw [if_neg hd] at h
      cases h
      simp [hs, hf]
  | structK align =>
    rw [hk] at h
    cases h
    have hs : contributes .string a x = false :=
      contributes_false _ a x (by simp [hk])
    have hf : contributes .filename a x = false :=
      contributes_false _ a x (by simp [hk])
    simp [hs, hf]
  | arrayK =>
    rw [hk] at h
    cases h
    have hs : contributes .string a x = false :=
      contributes_false _ a x (by simp [hk])
    have hf : contributes .filename a x = false :=
      contributes_false _ a x (by simp [hk])
    simp [hs, hf]
  | unionK n =>
    rw [hk] at h
    cases h
    have hs : contributes .string a x = false :=
      contributes_false _ a x (by simp [hk])
    have hf : contributes .filename a x = false :=
      contributes_false _ a x (by simp [hk])
    simp [hs, hf]
  | ptrK u =>
    rw [hk] at h
    cases h
    have hs : contributes .string a x = false :=
      contributes_false _ a x (by simp [hk])
    have hf : contributes .filename a x = false :=
      contributes_false _ a x (by simp [hk])
    simp [hs, hf]
  | csumK =>
    rw [hk] at h
    cases h
    have hs : contributes .string a x = false :=
      contributes_false _ a x (by simp [hk])
    have hf : contributes .filename a x = false :=
      contributes_false _ a x (by simp [hk])
    simp [hs, hf]
  | constK pd =>
    rw [hk] at h
    cases h
    have hs : contributes .string a x = false :=
      contributes_false _ a x (by simp [hk])
    have hf : contributes .filename a x = false :=
      contributes_false _ a x (by simp [hk])
    simp [hs, hf]
  | intK =>
    rw [hk] at h
    cases h
    have hs : contributes .string a x = false :=
      contributes_false _ a x (by simp [hk])
    have hf : contributes .filename a x = false :=
      contributes_false _ a x (by simp [hk])
    simp [hs, hf]

theorem analyzeArg_contents (tg : Target) (s : AState) (a : Arg) (s' : AState)
    (h : analyzeArg tg s a = some s') (x : List Nat) :
    (x ∈ s'.strings ↔ x ∈ s.strings ∨ contributes .string a x = true) ∧
    (x ∈ s'.files ↔ x ∈ s.files ∨ contributes .filename a x = true) := by
  unfold analyzeArg at h
  cases h1 : analyzePtr tg s a with
  | none => rw [h1] at h; exact absurd h (by simp)
  | some s1 =>
    rw [h1] at h
    obtain ⟨hf, hs, -⟩ := analyzePtr_fields tg s a s1 h1
    have := analyzeTyp_contents s1 a s' h x
    rw [hs, hf] at this
    exact this

theorem visitsFold_contents (tg : Target) (x : List Nat) :
    ∀ (l : List (Arg × ArgCtx)) (s s' : AState),
    l.foldlM (fun st pr => analyzeArg tg st pr.1) s = some s' →
    (x ∈ s'.strings ↔ x ∈ s.strings ∨
      ∃ pr ∈ l, contributes .string pr.1 x = true) ∧
    (x ∈ s'.files ↔ x ∈ s.files ∨
      ∃ pr ∈ l, contributes .filename pr.1 x = true) := by
  intro l
  induction l with
  | nil =>
    intro s s' h
    simp [List.foldlM] at h
    simp [← h]
  | cons pr rest ih =>
    intro s s' h
    rw [List.foldlM_cons] at h
    cases h1 : analyzeArg tg s pr.1 with
    | none => rw [h1] at h; exact absurd h (by simp)
    | some s1 =>
      rw [h1] at h
      simp only [Option.bind_eq_bind, Option.some_bind] at h
      obtain ⟨hstr, hfil⟩ := analyzeArg_contents tg s pr.1 s1 h1 x
      obtain ⟨ihs, ihf⟩ := ih s1 s' h
      constructor
      · rw [ihs, hstr]
        simp only [List.mem_cons]
        constructor
        · rintro ((hx | hx) | ⟨q, hq, hc⟩)
          · exact Or.inl hx
          · exact Or.inr ⟨pr, Or.inl rfl, hx⟩
          · exact Or.inr ⟨q, Or.inr hq, hc⟩
        · rintro (hx | ⟨q, hq | hq, hc⟩)
          · exact Or.inl (Or.inl hx)
          · exact Or.inl (Or.inr (hq ▸ hc))
          · exact Or.inr ⟨q, hq, hc⟩
      · rw [ihf, hfil]
        simp only [List.mem_cons]
        constructor
        · rintro ((hx | hx) | ⟨q, hq, hc⟩)
          · exact Or.inl hx
          · exact Or.inr ⟨pr, Or.inl rfl, hx⟩
          · exact Or.inr ⟨q, Or.inr hq, hc⟩
        · rintro (hx | ⟨q, hq | hq, hc⟩)
          · exact Or.inl (Or.inl hx)
          · exact Or.inl (Or.inr (hq ▸ hc))
          · exact Or.inr ⟨q, hq, hc⟩

theorem stateAnalyzeCall_contents (tg : Target) (s : AState) (c : Call)
    (s' : AState) (h : stateAnalyzeCall tg s c = some s') (x : List Nat) :
    (x ∈ s'.strings ↔ x ∈ s.strings ∨
      ∃ a ∈ callPreorder c, contributes .string a x = true) ∧
    (x ∈ s'.files ↔ x ∈ s.files ∨
      ∃ a ∈ callPreorder c, contributes .filename a x = true) := by
  unfold stateAnalyzeCall at h
  cases hv : foreachArg noStop c with
  | none => rw [hv] at h; exact absurd h (by simp)
  | some vs =>
    rw [hv] at h
    have hvis := foreachArg_visits_noStop c vs hv
    have hmem : ∀ (p : Arg → Bool),
        (∃ pr ∈ vs, p pr.1 = true) ↔ ∃ a ∈ callPreorder c, p a = true := by
      intro p
      rw [← hvis]
      constructor
      · rintro ⟨pr, hpr, hp⟩
        exact ⟨pr.1, List.mem_map.mpr ⟨pr, hpr, rfl⟩, hp⟩
      · rintro ⟨a, ha, hp⟩
        obtain ⟨pr, hpr, he⟩ := List.mem_map.mp ha
        exact ⟨pr, hpr, he ▸ hp⟩
    obtain ⟨hs, hf⟩ := visitsFold_contents tg x vs s s' h
    exact ⟨hs.trans
        (or_congr Iff.rfl (hmem (fun a => contributes .string a x))),
      hf.trans
        (or_congr Iff.rfl (hmem (fun a => contributes .filename a x)))⟩

theorem callsFold_contents (tg : Target) (x : List Nat) :
    ∀ (cs : List Call) (s s' : AState),
    cs.foldlM (stateAnalyzeCall tg) s = some s' →
    (x ∈ s'.strings ↔ x ∈ s.strings ∨
      ∃ cl ∈ cs, ∃ a ∈ callPreorder cl, contributes .string a x = true) ∧
    (x ∈ s'.files ↔ x ∈ s.files ∨
      ∃ cl ∈ cs, ∃ a ∈ callPreorder cl, contributes .filename a x = true) := by
  intro cs
  induction cs with
  | nil =>
    intro s s' h
    simp [List.foldlM] at h
    simp [← h]
  | cons c rest ih =>
    intro s s' h
    rw [List.foldlM_cons] at h
    cases h1 : stateAnalyzeCall tg s c with
    | none => rw [h1] at h; exact absurd h (by simp)
    | some s1 =>
      rw [h1] at h
      simp only [Option.bind_eq_bind, Option.some_bind] at h
      obtain ⟨hstr, hfil⟩ := stateAnalyzeCall_contents tg s c s1 h1 x
      obtain ⟨ihs, ihf⟩ := ih s1 s' h
      constructor
      · rw [ihs, hstr]
        simp only [List.mem_cons]
        constructor
        · rintro ((hx | hx) | ⟨q, hq, hc⟩)
          · exact Or.inl hx
          · exact Or.inr ⟨c, Or.inl rfl, hx⟩
          · exact Or.inr ⟨q, Or.inr hq, hc⟩
        · rintro (hx | ⟨q, hq | hq, hc⟩)
          · exact Or.inl (Or.inl hx)
          · exact Or.inl (Or.inr (hq ▸ hc))
          · exact Or.inr ⟨q, hq, hc⟩
      · rw [ihf, hfil]
        simp only [List.mem_cons]
        constructor
        · rintro ((hx | hx) | ⟨q, hq, hc⟩)
          · exact Or.inl hx
          · exact Or.inr ⟨c, Or.inl rfl, hx⟩
          · exact Or.inr ⟨q, Or.inr hq, hc⟩
        · rintro (hx | ⟨q, hq | hq, hc⟩)
          · exact Or.inl (Or.inl hx)
          · exact Or.inl (Or.inr (hq ▸ hc))
          · exact Or.inr ⟨q, hq, hc⟩

/-- An input-direction string data argument with empty content. -/
def exEmptyStrArg : Arg := .data exStrT [] 0

/-- An inout-direction string data argument with content "ab". -/
def exInOutStrArg : Arg := .data { exStrT with dir := .dirInOut } [97, 98] 0

/-- A call carrying the two string data arguments above. -/
def exStrCall : Call :=
  { name := "s", args := [exEmptyStrArg, exInOutStrArg], ret := none }

/-- The snapshot before `exCallB` in `[exStrCall, exCallB]`. -/
def exSnapS : AState :=
  { files := [], resources := [], strings := [[97, 98]], ma := [], va := [] }

/-- C8 counterexample: in the program `[exStrCall, exCallB]`, the
string set after analysing up to `exCallB` is exactly `{"ab"}` — the
content of an inout-direction data argument, which the claim's
"input-direction" reading excludes — while the empty content of the
pure-input string argument, which the claim's "exactly the distinct
byte contents" reading includes, is absent from it.  So the claim as
stated fails in both directions at this input. -/
theorem analyze_contents_claim_cex :
    analyze { target := exTarget, calls := [exStrCall, exCallB] } exCallB
      = some exSnapS ∧
    [97, 98] ∈ exSnapS.strings ∧
    (¬ ∃ cl ∈ [exStrCall], ∃ a ∈ callPreorder cl,
      claimContent .string a [97, 98] = true) ∧
    (∃ cl ∈ [exStrCall], ∃ a ∈ callPreorder cl,
      claimContent .string a [] = true) ∧
    [] ∉ exSnapS.strings := by
  refine ⟨by rfl, by decide, by decide, ?_, by decide⟩
  exact ⟨exStrCall, by decide, exEmptyStrArg, by decide, by decide⟩

/-- C8 (amended): after `Analyze(P, c)`, the string set and the
filename set contain exactly the distinct nonempty byte contents of
the Data arguments of non-output direction reachable from the calls
strictly before `c`, partitioned by semantic kind — generic-string
contents in the string set, filename contents in the filename set. -/
theorem analyze_contents_amended (tg : Target) (l1 l2 : List Call)
    (c : Call) (hne : c ∉ l1) (s : AState)
    (ha : analyze { target := tg, calls := l1 ++ c :: l2 } c = some s)
    (x : List Nat) :
    (x ∈ s.strings ↔
      ∃ cl ∈ l1, ∃ a ∈ callPreorder cl, contributes .string a x = true) ∧
    (x ∈ s.files ↔
      ∃ cl ∈ l1, ∃ a ∈ callPreorder cl, contributes .filename a x = true) := by
  unfold analyze at ha
  simp only at ha
  rw [takeWhile_ne_of_not_mem l1 c hne l2] at ha
  have := callsFold_contents tg x l1 {} s ha
  simpa using this

mutual

/-- Constructor/type-kind consistency of an argument tree, as the
data model requires: pointer arguments carry pointer types, groups
carry struct or array types, unions carry union types. -/
def typedArg : Arg → Bool
  | .const _ _ => true
  | .result _ _ => true
  | .data _ _ _ => true
  | .ptr t _ res _ =>
    (match t.kind with
     | .ptrK _ => true
     | _ => false) &&
    (match res with
     | none => true
     | some r => typedArg r)
  | .group t inner =>
    (match t.kind with
     | .structK _ => true
     | .arrayK => true
     | _ => false) &&
    typedArgList inner
  | .union t opt =>
    (match t.kind with
     | .unionK _ => true
     | _ => false) &&
    typedArg opt

/-- `typedArg` over every member of a list. -/
def typedArgList : List Arg → Bool
  | [] => true
  | x :: xs => typedArg x && typedArgList xs

end

theorem ne_of_sizeOf_lt {a b : Arg} (h : sizeOf a < sizeOf b) : a ≠ b :=
  fun e => absurd h (e ▸ lt_irrefl _)

mutual

theorem complex_scan (root : Arg) : ∀ (a : Arg), typedArg a = true →
    sizesOk a = true → sizeOf a < sizeOf root → ∀ ctx, ∃ l,
    foreachArgImpl (complexStop root) a ctx = some l ∧
    l.any (fun pr => complexNode pr.1) = directlyComplex a
  | .const t v => by
    intro _ _ _ ctx
    refine ⟨[(.const t v, ctx)], ?_, ?_⟩
    · by_cases hf : complexStop root (.const t v) ctx = true <;>
        simp [foreachArgImpl, hf]
    · simp [directlyComplex, List.any_cons]
  | .result t v => by
    intro _ _ _ ctx
    refine ⟨[(.result t v, ctx)], ?_, ?_⟩
    · by_cases hf : complexStop root (.result t v) ctx = true <;>
        simp [foreachArgImpl, hf]
    · simp [directlyComplex, List.any_cons]
  | .data t bs sz => by
    intro _ _ _ ctx
    refine ⟨[(.data t bs sz, ctx)], ?_, ?_⟩
    · by_cases hf : complexStop root (.data t bs sz) ctx = true <;>
        simp [foreachArgImpl, hf]
    · simp [directlyComplex, List.any_cons]
  | .ptr t addr none vma => by
    intro _ _ _ ctx
    refine ⟨[(.ptr t addr none vma, ctx)], ?_, ?_⟩
    · by_cases hf : complexStop root (.ptr t addr none vma) ctx = true <;>
        simp [foreachArgImpl, hf]
    · simp [directlyComplex, List.any_cons]
  | .ptr t addr (some r) vma => by
    intro htyped _ hlt ctx
    rw [typedArg, Bool.and_eq_true] at htyped
    have hstop : complexStop root (.ptr t addr (some r) vma) ctx = true := by
      unfold complexStop
      cases hk : t.kind with
      | ptrK u =>
        simp only [Arg.typ]
        rw [hk]
        exact decide_eq_true (ne_of_sizeOf_lt hlt)
      | structK align => rw [hk] at htyped; exact absurd htyped.1 (by simp)
      | arrayK => rw [hk] at htyped; exact absurd htyped.1 (by simp)
      | unionK n => rw [hk] at htyped; exact absurd htyped.1 (by simp)
      | resourceK rn => rw [hk] at htyped; exact absurd htyped.1 (by simp)
      | bufferK bk => rw [hk] at htyped; exact absurd htyped.1 (by simp)
      | csumK => rw [hk] at htyped; exact absurd htyped.1 (by simp)
      | constK pd => rw [hk] at htyped; exact absurd htyped.1 (by simp)
      | intK => rw [hk] at htyped; exact absurd htyped.1 (by simp)
    refine ⟨[(.ptr t addr (some r) vma, ctx)], by simp [foreachArgImpl, hstop], ?_⟩
    obtain ⟨hk0, -⟩ := htyped
    have hcn : complexNode (.ptr t addr (some r) vma) = false := by
      unfold complexNode
      cases hk : t.kind <;> simp [Arg.typ, hk] <;> rw [hk] at hk0 <;>
        exact absurd hk0 (by simp)
    simp [directlyComplex, List.any, hcn]
  | .union t opt => by
    intro htyped hsz hlt ctx
    rw [typedArg, Bool.and_eq_true] at htyped
    obtain ⟨hk0, htopt⟩ := htyped
    rw [sizesOk] at hsz
    cases hk : t.kind with
    | unionK n =>
      have hstop : complexStop root (.union t opt) ctx
          = complexNode (.union t opt) := by
        unfold complexStop complexNode
        simp [Arg.typ, hk]
      by_cases hc : complexNode (.union t opt) = true
      · rw [hc] at hstop
        refine ⟨[(.union t opt, ctx)], by simp [foreachArgImpl, hstop], ?_⟩
        simp [directlyComplex, List.any_cons, hc]
      · have hc' : complexNode (.union t opt) = false :=
          Bool.eq_false_iff.mpr hc
        rw [hc'] at hstop
        have hlt' : sizeOf opt < sizeOf root := by
          have : sizeOf opt < sizeOf (Arg.union t opt) := by
            simp
          omega
        obtain ⟨vs, hvs, hany⟩ := complex_scan root opt htopt hsz hlt' ctx
        refine ⟨(.union t opt, ctx) :: vs, ?_, ?_⟩
        · simp only [foreachArgImpl, hstop, Bool.false_eq_true, if_false, hvs]
        · simp [directlyComplex, List.any_cons, hc', hany]
    | structK align => rw [hk] at hk0; exact absurd hk0 (by simp)
    | arrayK => rw [hk] at hk0; exact absurd hk0 (by simp)
    | ptrK u => rw [hk] at hk0; exact absurd hk0 (by simp)
    | resourceK rn => rw [hk] at hk0; exact absurd hk0 (by simp)
    | bufferK bk => rw [hk] at hk0; exact absurd hk0 (by simp)
    | csumK => rw [hk] at hk0; exact absurd hk0 (by simp)
    | constK pd => rw [hk] at hk0; exact absurd hk0 (by simp)
    | intK => rw [hk] at hk0; exact absurd hk0 (by simp)
  | .group t inner => by
    intro htyped hsz hlt ctx
    rw [typedArg, Bool.and_eq_true] at htyped
    obtain ⟨hk0, htinner⟩ := htyped
    rw [sizesOk, Bool.and_eq_true] at hsz
    obtain ⟨hinv, hlist⟩ := hsz
    have hlt' : sizeOf inner < sizeOf root := by
      have : sizeOf inner < sizeOf (Arg.group t inner) := by
        simp
      omega
    have hstop : complexStop root (.group t inner) ctx
        = complexNode (.group t inner) := by
      unfold complexStop complexNode
      cases hk : t.kind with
      | structK align => simp [Arg.typ, hk]
      | arrayK => simp [Arg.typ, hk]
      | unionK n => rw [hk] at hk0; exact absurd hk0 (by simp)
      | ptrK u => rw [hk] at hk0; exact absurd hk0 (by simp)
      | resourceK rn => rw [hk] at hk0; exact absurd hk0 (by simp)
      | bufferK bk => rw [hk] at hk0; exact absurd hk0 (by simp)
      | csumK => rw [hk] at hk0; exact absurd hk0 (by simp)
      | constK pd => rw [hk] at hk0; exact absurd hk0 (by simp)
      | intK => rw [hk] at hk0; exact absurd hk0 (by simp)
    by_cases hc : complexNode (.group t inner) = true
    · rw [hc] at hstop
      refine ⟨[(.group t inner, ctx)], by simp [foreachArgImpl, hstop], ?_⟩
      simp [directlyComplex, List.any_cons, hc]
    · have hc' : complexNode (.group t inner) = false :=
        Bool.eq_false_iff.mpr hc
      rw [hc'] at hstop
      obtain ⟨vs, tot, hvs, hany⟩ :=
        complex_scan_fields root inner htinner hlist hlt'
          (match t.kind with
           | .structK _ => { ctx with parent := some inner }
           | _ => ctx)
      have htot : tot = sizeFields inner :=
        fields_total_size _ inner _ vs tot hvs
      subst htot
      refine ⟨(.group t inner, ctx) :: vs, ?_, ?_⟩
      · simp only [foreachArgImpl, hstop, Bool.false_eq_true, if_false, hvs]
        by_cases hv : t.isVarlen
        · have hle : sizeFields inner ≤ Arg.size (.group t inner) := by
            simpa [hv] using hinv
          simp [hv, Nat.not_lt.mpr hle]
        · have heq : sizeFields inner = Arg.size (.group t inner) := by
            simpa [hv] using hinv
          simp [hv, heq]
      · simp [directlyComplex, List.any_cons, hc', hany]

theorem complex_scan_fields (root : Arg) : ∀ (fs : List Arg),
    typedArgList fs = true → sizesOkList fs = true →
    sizeOf fs < sizeOf root → ∀ ctx, ∃ l tot,
    foreachFields (complexStop root) fs ctx = some (l, tot) ∧
    l.any (fun pr => complexNode pr.1) = directlyComplexList fs
  | [] => by
    intro _ _ _ ctx
    exact ⟨[], 0, by simp [foreachFields], by simp [directlyComplexList]⟩
  | x :: xs => by
    intro htyped hsz hlt ctx
    rw [typedArgList, Bool.and_eq_true] at htyped
    rw [sizesOkList, Bool.and_eq_true] at hsz
    have hltx : sizeOf x < sizeOf root := by
      have : sizeOf x < sizeOf (x :: xs) := by simp; omega
      omega
    have hltxs : sizeOf xs < sizeOf root := by
      have : sizeOf xs < sizeOf (x :: xs) := by simp
      omega
    obtain ⟨v, hv, hvany⟩ := complex_scan root x htyped.1 hsz.1 hltx ctx
    obtain ⟨vs, tot, hvs, hvsany⟩ :=
      complex_scan_fields root xs htyped.2 hsz.2 hltxs
        { ctx with offset := ctx.offset + if x.typ.bitfieldMid then 0 else x.size }
    refine ⟨v ++ vs, (if x.typ.bitfieldMid then 0 else x.size) + tot,
      by simp [foreachFields, hv, hvs], ?_⟩
    simp [List.any_append, hvany, hvsany, directlyComplexList]

end

/-- C5: assuming the pointed-to subtree is constructor/type
consistent and satisfies the group-size invariant, `isComplexPtr`
computes precisely the spec's predicate: false when the subtree is
absent (null or raw-VMA payload) or the direction is not pure input;
true when the declared target type is literally the universal array
(identity); otherwise true iff the pointed-to subtree directly
contains — stopping below any nested pointer — a variable-length
struct or a variable-length union with more than five alternatives. -/
theorem isComplexPtr_contract (t : Typ) (addr : Nat) (res : Option Arg)
    (vma : Nat)
    (h : ∀ r, res = some r → typedArg r = true ∧ sizesOk r = true) :
    isComplexPtr (.ptr t addr res vma) =
      some (specIsComplex (.ptr t addr res vma)) := by
  cases res with
  | none => rfl
  | some r =>
    obtain ⟨htyped, hsz⟩ := h r rfl
    unfold isComplexPtr specIsComplex
    by_cases hd : t.dir ≠ .dirIn
    · simp [hd]
    · simp only [hd, Bool.false_eq_true, if_false]
      by_cases hany : isAnyPtr t = true
      · simp [hany]
      · have hany' : isAnyPtr t = false := Bool.eq_false_iff.mpr hany
        simp only [hany', Bool.false_eq_true, if_false]
        have hlt : sizeOf r < sizeOf (Arg.ptr t addr (some r) vma) := by
          simp
          omega
        obtain ⟨l, hl, ha⟩ :=
          complex_scan (.ptr t addr (some r) vma) r htyped hsz hlt {}
        unfold foreachSubArg
        rw [hl]
        dsimp only
        rw [ha]

theorem isComplexPtr_contract_witness :
    isComplexPtr (.ptr exPtrT 0 (some (.group exVarStructT [.const exIntT 5])) 0)
      = some (specIsComplex
          (.ptr exPtrT 0 (some (.group exVarStructT [.const exIntT 5])) 0)) :=
  isComplexPtr_contract exPtrT 0 (some (.group exVarStructT [.const exIntT 5])) 0
    (fun r hr => by cases hr; exact ⟨by decide, by decide⟩)

theorem analyze_contents_amended_witness :
    ([97, 98] ∈ exSnapS.strings ↔
      ∃ cl ∈ [exStrCall], ∃ a ∈ callPreorder cl,
        contributes .string a [97, 98] = true) ∧
    ([97, 98] ∈ exSnapS.files ↔
      ∃ cl ∈ [exStrCall], ∃ a ∈ callPreorder cl,
        contributes .filename a [97, 98] = true) :=
  analyze_contents_amended exTarget [exStrCall] [] exCallB (by decide)
    exSnapS (by rfl) [97, 98]

/-! Squash support lemmas. -/

theorem leBytes_length (v n : Nat) : (leBytes v n).length = n := by
  simp [leBytes]

theorem elemsSize_append (es1 es2 : List Arg) :
    elemsSize (es1 ++ es2) = elemsSize es1 + elemsSize es2 := by
  induction es1 with
  | nil => simp [elemsSize]
  | cons e rest ih => simp [elemsSize, ih]; omega

theorem size_union_anyUnion (o : Arg) :
    Arg.size (.union anyUnionT o) = o.size := by
  simp [Arg.size, anyUnionT]

theorem size_data_anyBlob (bs : List Nat) (sz : Nat) :
    Arg.size (.data anyBlobT bs sz) = bs.length := by
  simp [Arg.size, anyBlobT]

theorem goodElems_nil : goodElems [] = true := by
  simp [goodElems, noAdjacentBlobs]

/-- Under the vocabulary invariant every element is a varlen union of
a non-bitfield type, so the group content size is the element size
sum. -/
theorem sizeFields_eq_elemsSize : ∀ (es : List Arg),
    es.all vocabElem = true → sizeFields es = elemsSize es := by
  intro es
  induction es with
  | nil => intro _; rfl
  | cons e rest ih =>
    intro h
    rw [List.all_cons, Bool.and_eq_true] at h
    obtain ⟨he, hrest⟩ := h
    rw [sizeFields, elemsSize, ih hrest]
    cases e with
    | union ut o =>
      unfold vocabElem at he
      rw [Bool.and_eq_true] at he
      have hu : ut = anyUnionT := of_decide_eq_true he.1
      subst hu
      simp [Arg.typ, anyUnionT]
    | const t v => exact absurd he (by simp [vocabElem])
    | result t v => exact absurd he (by simp [vocabElem])
    | ptr t a r vm => exact absurd he (by simp [vocabElem])
    | data t b s => exact absurd he (by simp [vocabElem])
    | group t i => exact absurd he (by simp [vocabElem])

theorem noAdjacentBlobs_append_nonblob : ∀ (es : List Arg) (x : Arg),
    noAdjacentBlobs es = true → isBlobElem x = false →
    noAdjacentBlobs (es ++ [x]) = true := by
  intro es
  induction es with
  | nil => intro x _ _; simp [noAdjacentBlobs]
  | cons e rest ih =>
    intro x h hx
    cases rest with
    | nil =>
      simp only [List.cons_append, List.nil_append, noAdjacentBlobs, hx]
      simp
    | cons e2 rest2 =>
      rw [noAdjacentBlobs, Bool.and_eq_true] at h
      have := ih x h.2 hx
      simp only [List.cons_append] at this ⊢
      rw [noAdjacentBlobs, this]
      simp [h.1]

theorem noAdjacentBlobs_replace_last : ∀ (es : List Arg) (x y : Arg),
    noAdjacentBlobs (es ++ [x]) = true → isBlobElem y = isBlobElem x →
    noAdjacentBlobs (es ++ [y]) = true := by
  intro es
  induction es with
  | nil => intro x y _ _; simp [noAdjacentBlobs]
  | cons e rest ih =>
    intro x y h hxy
    cases rest with
    | nil =>
      simp only [List.cons_append, List.nil_append, noAdjacentBlobs,
        Bool.and_eq_true] at h ⊢
      rw [hxy]
      exact ⟨h.1, by simp [noAdjacentBlobs]⟩
    | cons e2 rest2 =>
      simp only [List.cons_append, noAdjacentBlobs, Bool.and_eq_true] at h ⊢
      exact ⟨h.1, by
        have := ih x y (by simpa using h.2) hxy
        simpa using this⟩

theorem placeholders_append (es1 es2 : List Arg) :
    placeholders (es1 ++ es2) = placeholders es1 ++ placeholders es2 := by
  simp [placeholders]

theorem noAdjacentBlobs_snoc : ∀ (es : List Arg) (x : Arg),
    noAdjacentBlobs es = true →
    (∀ l, es.getLast? = some l → (isBlobElem l && isBlobElem x) = false) →
    noAdjacentBlobs (es ++ [x]) = true := by
  intro es
  induction es with
  | nil => intro x _ _; simp [noAdjacentBlobs]
  | cons e rest ih =>
    intro x h hp
    cases rest with
    | nil =>
      simp only [List.cons_append, List.nil_append, noAdjacentBlobs,
        Bool.and_eq_true]
      refine ⟨?_, by simp [noAdjacentBlobs]⟩
      have := hp e (by rfl)
      simp [this]
    | cons e2 rest2 =>
      rw [noAdjacentBlobs, Bool.and_eq_true] at h
      have hrec := ih x h.2 (fun l hl => hp l (by
        rw [List.getLast?_cons_cons]
        exact hl))
      simp only [List.cons_append] at hrec ⊢
      rw [noAdjacentBlobs, hrec]
      simp [h.1]

theorem goodElems_snoc (es : List Arg) (x : Arg)
    (hgood : goodElems es = true) (hx : vocabElem x = true)
    (hpair : ∀ l, es.getLast? = some l → (isBlobElem l && isBlobElem x) = false) :
    goodElems (es ++ [x]) = true := by
  rw [goodElems, Bool.and_eq_true] at hgood
  rw [goodElems, Bool.and_eq_true]
  constructor
  · rw [List.all_append]
    simp [hgood.1, hx]
  · exact noAdjacentBlobs_snoc es x hgood.2 hpair

/-- The blob element opened by `ensureDataElem` for content `bs`. -/
def blobElem (bs : List Nat) : Arg := .union anyUnionT (.data anyBlobT bs 0)

theorem vocabElem_blob (bs : List Nat) : vocabElem (blobElem bs) = true := by
  simp [vocabElem, blobElem]

theorem ensureAppendData_spec (es : List Arg) (bs : List Nat)
    (hgood : goodElems es = true) :
    goodElems (ensureAppendData es bs) = true ∧
    elemsSize (ensureAppendData es bs) = elemsSize es + bs.length ∧
    placeholders (ensureAppendData es bs) = placeholders es := by
  unfold ensureAppendData
  cases hlast : es.getLast? with
  | none =>
    have hnil : es = [] := List.getLast?_eq_none_iff.mp hlast
    subst hnil
    refine ⟨?_, ?_, ?_⟩
    · simp only []
      rw [List.nil_append]
      exact goodElems_snoc [] _ goodElems_nil (vocabElem_blob bs)
        (fun l hl => by simp at hl)
    · simp [elemsSize, size_union_anyUnion, size_data_anyBlob]
    · simp [placeholders]
  | some elem =>
    have hdecomp : es.dropLast ++ [elem] = es :=
      List.dropLast_append_getLast? elem (by rw [hlast]; rfl)
    have hmem : elem ∈ es := by
      rw [← hdecomp]
      simp
    have hvocab : vocabElem elem = true := by
      rw [goodElems, Bool.and_eq_true] at hgood
      exact List.all_eq_true.mp hgood.1 elem hmem
    cases elem with
    | union ut o =>
      have hu : ut = anyUnionT := by
        unfold vocabElem at hvocab
        rw [Bool.and_eq_true] at hvocab
        exact of_decide_eq_true hvocab.1
      subst hu
      cases o with
      | data dt dd dsz =>
        have hd : dt = anyBlobT := by
          unfold vocabElem at hvocab
          rw [Bool.and_eq_true] at hvocab
          exact of_decide_eq_true hvocab.2
        subst hd
        simp only []
        refine ⟨?_, ?_, ?_⟩
        · rw [goodElems, Bool.and_eq_true] at hgood ⊢
          constructor
          · have h1 := hgood.1
            rw [← hdecomp, List.all_append] at h1
            rw [List.all_append]
            rw [Bool.and_eq_true] at h1 ⊢
            refine ⟨h1.1, ?_⟩
            simp [vocabElem]
          · have h2 := hgood.2
            rw [← hdecomp] at h2
            exact noAdjacentBlobs_replace_last es.dropLast _ _ h2 (by
              simp [isBlobElem])
        · conv_rhs => rw [← hdecomp]
          rw [elemsSize_append, elemsSize_append]
          simp [elemsSize, size_union_anyUnion, size_data_anyBlob]
          omega
        · conv_rhs => rw [← hdecomp]
          rw [placeholders_append, placeholders_append]
          simp [placeholders]
      | const ot ov =>
        simp only []
        refine ⟨?_, ?_, ?_⟩
        · exact goodElems_snoc es _ hgood (vocabElem_blob bs)
            (fun l hl => by
              rw [hlast] at hl
              cases hl
              simp [isBlobElem])
        · rw [elemsSize_append]
          simp [elemsSize, size_union_anyUnion, size_data_anyBlob]
        · rw [placeholders_append]
          simp [placeholders]
      | result ot ov =>
        simp only []
        refine ⟨?_, ?_, ?_⟩
        · exact goodElems_snoc es _ hgood (vocabElem_blob bs)
            (fun l hl => by
              rw [hlast] at hl
              cases hl
              simp [isBlobElem])
        · rw [elemsSize_append]
          simp [elemsSize, size_union_anyUnion, size_data_anyBlob]
        · rw [placeholders_append]
          simp [placeholders]
      | ptr ot oa orr ovm =>
        simp only []
        refine ⟨?_, ?_, ?_⟩
        · exact goodElems_snoc es _ hgood (vocabElem_blob bs)
            (fun l hl => by
              rw [hlast] at hl
              cases hl
              simp [isBlobElem])
        · rw [elemsSize_append]
          simp [elemsSize, size_union_anyUnion, size_data_anyBlob]
        · rw [placeholders_append]
          simp [placeholders]
      | group ot oi =>
        simp only []
        refine ⟨?_, ?_, ?_⟩
        · exact goodElems_snoc es _ hgood (vocabElem_blob bs)
            (fun l hl => by
              rw [hlast] at hl
              cases hl
              simp [isBlobElem])
        · rw [elemsSize_append]
          simp [elemsSize, size_union_anyUnion, size_data_anyBlob]
        · rw [placeholders_append]
          simp [placeholders]
      | union ot oo =>
        simp only []
        refine ⟨?_, ?_, ?_⟩
        · exact goodElems_snoc es _ hgood (vocabElem_blob bs)
            (fun l hl => by
              rw [hlast] at hl
              cases hl
              simp [isBlobElem])
        · rw [elemsSize_append]
          simp [elemsSize, size_union_anyUnion, size_data_anyBlob]
        · rw [placeholders_append]
          simp [placeholders]
    | const t v => exact absurd hvocab (by simp [vocabElem])
    | result t v => exact absurd hvocab (by simp [vocabElem])
    | ptr t a r vm => exact absurd hvocab (by simp [vocabElem])
    | data t b s => exact absurd hvocab (by simp [vocabElem])
    | group t i => exact absurd hvocab (by simp [vocabElem])

theorem makeAnyPtrType_spec (tg : Target) (sz : Nat) (f : String)
    (h : sz = tg.ptrSize ∨ sz = 8) :
    ∃ t', makeAnyPtrType tg sz f = some t' ∧ t'.size = sz ∧
      t'.kind = .ptrK anyArrayUid := by
  unfold makeAnyPtrType
  by_cases h1 : sz = tg.ptrSize
  · rw [if_pos h1]
    exact ⟨_, rfl, rfl, rfl⟩
  · have h8 : sz = 8 := h.resolve_left h1
    rw [if_neg h1, if_pos h8]
    exact ⟨_, rfl, rfl, rfl⟩

theorem union_pad_eq (a b : Nat) (hle : b ≤ a) (hlt : a < 2 ^ 64) :
    (a + (2 ^ 64 - b % 2 ^ 64)) % 2 ^ 64 = a - b := by
  have hb : b % 2 ^ 64 = b := Nat.mod_eq_of_lt (lt_of_le_of_lt hle hlt)
  rw [hb]
  have h64 : (2 : Nat) ^ 64 = 18446744073709551616 := by norm_num
  rw [h64] at hlt ⊢
  omega

theorem isAnyPtr_of_kind {t : Typ} (h : t.kind = .ptrK anyArrayUid) :
    isAnyPtr t = true := by
  unfold isAnyPtr
  rw [h]
  simp

/-- The vocabulary/blob-adjacency pair condition for appending any
non-blob element. -/
theorem pair_nonblob {es : List Arg} {x : Arg} (hx : isBlobElem x = false) :
    ∀ l, es.getLast? = some l → (isBlobElem l && isBlobElem x) = false := by
  intro l _
  simp [hx]

mutual

theorem squash_master (tg : Target) : ∀ (a : Arg), wfSquash tg a = true →
    widthsOk a = true → ∀ (es : List Arg), goodElems es = true →
    ∃ es', squashPtrImpl tg a es = some es' ∧
      elemsSize es' = elemsSize es + a.size ∧
      goodElems es' = true ∧
      placeholders es' = placeholders es ++ (resLeaves a).map retag
  | .const t v => by
    intro hwf _ es hgood
    rw [wfSquash] at hwf
    have hbf : t.bitfieldMid = false := by simpa using hwf
    unfold squashPtrImpl
    simp only [Arg.typ, hbf, Bool.false_eq_true, if_false]
    cases hk : t.kind with
    | constK pd =>
      cases pd with
      | true =>
        simp only
        by_cases hsz : t.size ≠ 0
        · rw [if_pos hsz]
          obtain ⟨hg, hs, hp⟩ :=
            ensureAppendData_spec es (List.replicate t.size 0) hgood
          refine ⟨_, rfl, ?_, hg, ?_⟩
          · rw [hs, List.length_replicate]
            simp [Arg.size]
          · rw [hp]
            simp [resLeaves]
        · rw [if_neg hsz]
          simp only [not_not] at hsz
          exact ⟨es, rfl, by simp [Arg.size, hsz], hgood, by simp [resLeaves]⟩
      | false =>
        simp only
        rw [if_neg (by simp)]
        obtain ⟨hg, hs, hp⟩ := ensureAppendData_spec es (leBytes (valueForProc v 0) t.size) hgood
        refine ⟨_, rfl, ?_, hg, ?_⟩
        · rw [hs, leBytes_length]
          simp [Arg.size]
        · rw [hp]
          simp [resLeaves]
    | structK align =>
      simp only
      rw [if_neg (by simp)]
      obtain ⟨hg, hs, hp⟩ := ensureAppendData_spec es (leBytes (valueForProc v 0) t.size) hgood
      refine ⟨_, rfl, ?_, hg, ?_⟩
      · rw [hs, leBytes_length]
        simp [Arg.size]
      · rw [hp]
        simp [resLeaves]
    | arrayK =>
      simp only
      rw [if_neg (by simp)]
      obtain ⟨hg, hs, hp⟩ := ensureAppendData_spec es (leBytes (valueForProc v 0) t.size) hgood
      refine ⟨_, rfl, ?_, hg, ?_⟩
      · rw [hs, leBytes_length]
        simp [Arg.size]
      · rw [hp]
        simp [resLeaves]
    | unionK n =>
      simp only
      rw [if_neg (by simp)]
      obtain ⟨hg, hs, hp⟩ := ensureAppendData_spec es (leBytes (valueForProc v 0) t.size) hgood
      refine ⟨_, rfl, ?_, hg, ?_⟩
      · rw [hs, leBytes_length]
        simp [Arg.size]
      · rw [hp]
        simp [resLeaves]
    | ptrK u =>
      simp only
      rw [if_neg (by simp)]
      obtain ⟨hg, hs, hp⟩ := ensureAppendData_spec es (leBytes (valueForProc v 0) t.size) hgood
      refine ⟨_, rfl, ?_, hg, ?_⟩
      · rw [hs, leBytes_length]
        simp [Arg.size]
      · rw [hp]
        simp [resLeaves]
    | resourceK rn =>
      simp only
      rw [if_neg (by simp)]
      obtain ⟨hg, hs, hp⟩ := ensureAppendData_spec es (leBytes (valueForProc v 0) t.size) hgood
      refine ⟨_, rfl, ?_, hg, ?_⟩
      · rw [hs, leBytes_length]
        simp [Arg.size]
      · rw [hp]
        simp [resLeaves]
    | bufferK bk =>
      simp only
      rw [if_neg (by simp)]
      obtain ⟨hg, hs, hp⟩ := ensureAppendData_spec es (leBytes (valueForProc v 0) t.size) hgood
      refine ⟨_, rfl, ?_, hg, ?_⟩
      · rw [hs, leBytes_length]
        simp [Arg.size]
      · rw [hp]
        simp [resLeaves]
    | csumK =>
      simp only
      rw [if_neg (by simp)]
      obtain ⟨hg, hs, hp⟩ := ensureAppendData_spec es (leBytes (valueForProc v 0) t.size) hgood
      refine ⟨_, rfl, ?_, hg, ?_⟩
      · rw [hs, leBytes_length]
        simp [Arg.size]
      · rw [hp]
        simp [resLeaves]
    | intK =>
      simp only
      rw [if_neg (by simp)]
      obtain ⟨hg, hs, hp⟩ := ensureAppendData_spec es (leBytes (valueForProc v 0) t.size) hgood
      refine ⟨_, rfl, ?_, hg, ?_⟩
      · rw [hs, leBytes_length]
        simp [Arg.size]
      · rw [hp]
        simp [resLeaves]
  | .result t v => by
    intro hwf hw es hgood
    rw [wfSquash] at hwf
    have hbf : t.bitfieldMid = false := by simpa using hwf
    rw [widthsOk] at hw
    unfold squashPtrImpl
    simp only [Arg.typ, hbf, Bool.false_eq_true, if_false]
    by_cases h4 : t.size = 4
    · rw [if_pos h4]
      refine ⟨_, rfl, ?_, ?_, ?_⟩
      · rw [elemsSize_append]
        simp [elemsSize, size_union_anyUnion, Arg.size, anyUnionT, anyRes32T, h4]
      · refine goodElems_snoc es _ hgood (by simp [vocabElem, anyRes32T]) ?_
        exact pair_nonblob (by simp [isBlobElem])
      · rw [placeholders_append]
        simp [placeholders, resLeaves, retag, h4]
    · rw [if_neg h4]
      have h8 : t.size = 8 := by
        rcases Bool.or_eq_true _ _ |>.mp hw with h | h
        · exact absurd (of_decide_eq_true h) h4
        · exact of_decide_eq_true h
      rw [if_pos h8]
      refine ⟨_, rfl, ?_, ?_, ?_⟩
      · rw [elemsSize_append]
        simp [elemsSize, size_union_anyUnion, Arg.size, anyUnionT, anyRes64T, h8]
      · refine goodElems_snoc es _ hgood (by simp [vocabElem, anyRes64T]) ?_
        exact pair_nonblob (by simp [isBlobElem])
      · rw [placeholders_append]
        simp [placeholders, resLeaves, retag, h4]
  | .ptr t addr none vma => by
    intro hwf _ es hgood
    rw [wfSquash] at hwf
    have hbf : t.bitfieldMid = false := by simpa using hwf
    unfold squashPtrImpl
    simp only [Arg.typ, hbf, Bool.false_eq_true, if_false]
    obtain ⟨hg, hs, hp⟩ := ensureAppendData_spec es (leBytes (physicalAddr addr) t.size) hgood
    refine ⟨_, rfl, ?_, hg, ?_⟩
    · rw [hs, leBytes_length]
      simp [Arg.size]
    · rw [hp]
      simp [resLeaves]
  | .ptr t addr (some r) vma => by
    intro hwf hw es hgood
    rw [wfSquash] at hwf
    simp only [Bool.and_eq_true] at hwf
    obtain ⟨⟨⟨hbf0, hv0⟩, hws⟩, hwr⟩ := hwf
    have hbf : t.bitfieldMid = false := by simpa using hbf0
    have hveq : vma = 0 := of_decide_eq_true hv0
    subst hveq
    rw [widthsOk] at hw
    obtain ⟨es1, hes1, hsz1, hg1, hp1⟩ :=
      squash_master tg r hwr hw [] goodElems_nil
    rw [elemsSize] at hsz1
    rw [Nat.zero_add] at hsz1
    have hsv : (t.size = tg.ptrSize ∨ t.size = 8) := by
      rcases Bool.or_eq_true _ _ |>.mp hws with h | h
      · exact Or.inl (of_decide_eq_true h)
      · exact Or.inr (of_decide_eq_true h)
    obtain ⟨t', hmk, htsz, htk⟩ := makeAnyPtrType_spec tg t.size "" hsv
    have hgzsz : Arg.size (.group anyArrayT es1) = r.size := by
      have hall : es1.all vocabElem = true := by
        rw [goodElems, Bool.and_eq_true] at hg1
        exact hg1.1
      simp only [Arg.size, anyArrayT]
      rw [sizeFields_eq_elemsSize es1 hall, hsz1]
      simp
    have hne : ¬ (Arg.size (.group anyArrayT es1) ≠ r.size) := by
      rw [hgzsz]
      exact fun hc => hc rfl
    have hsq : squashPtr tg (.ptr t addr (some r) 0) false
        = some (.ptr t' addr (some (.group anyArrayT es1)) 0) := by
      unfold squashPtr
      dsimp only
      rw [if_neg (by simp : ¬ (0 : Nat) ≠ 0), hes1]
      simp only [Bool.false_eq_true, if_false]
      rw [hmk]
      dsimp only
      rw [if_neg hne]
    unfold squashPtrImpl
    simp only [Arg.typ, hbf, Bool.false_eq_true, if_false]
    rw [hsq]
    dsimp only
    refine ⟨_, rfl, ?_, ?_, ?_⟩
    · rw [elemsSize_append]
      simp [elemsSize, size_union_anyUnion, Arg.size, anyUnionT, htsz]
    · refine goodElems_snoc es _ hgood ?_ (pair_nonblob (by simp [isBlobElem]))
      simp [vocabElem, isAnyPtr_of_kind htk]
    · rw [placeholders_append]
      simp [placeholders, resLeaves]
  | .data t bytes outSize => by
    intro hwf _ es hgood
    rw [wfSquash] at hwf
    have hbf : t.bitfieldMid = false := by simpa using hwf
    unfold squashPtrImpl
    simp only [Arg.typ, hbf, Bool.false_eq_true, if_false]
    by_cases hd : t.dir = .dirOut
    · rw [if_pos hd]
      by_cases hz : Arg.size (.data t bytes outSize) ≠ 0
      · rw [if_pos hz]
        obtain ⟨hg, hs, hp⟩ := ensureAppendData_spec es
          (List.replicate (Arg.size (.data t bytes outSize)) 0) hgood
        refine ⟨_, rfl, ?_, hg, ?_⟩
        · rw [hs, List.length_replicate]
        · rw [hp]
          simp [resLeaves]
      · rw [if_neg hz]
        simp only [not_not] at hz
        exact ⟨es, rfl, by rw [hz]; simp, hgood, by simp [resLeaves]⟩
    · rw [if_neg hd]
      obtain ⟨hg, hs, hp⟩ := ensureAppendData_spec es bytes hgood
      refine ⟨_, rfl, ?_, hg, ?_⟩
      · rw [hs]
        simp [Arg.size, hd]
      · rw [hp]
        simp [resLeaves]
  | .union t opt => by
    intro hwf hw es hgood
    rw [wfSquash] at hwf
    simp only [Bool.and_eq_true] at hwf
    obtain ⟨⟨hbf0, hvu⟩, hwo⟩ := hwf
    have hbf : t.bitfieldMid = false := by simpa using hbf0
    rw [widthsOk] at hw
    obtain ⟨es1, hes1, hsz1, hg1, hp1⟩ := squash_master tg opt hwo hw es hgood
    unfold squashPtrImpl
    simp only [Arg.typ, hbf, Bool.false_eq_true, if_false]
    rw [hes1]
    dsimp only
    by_cases hvl : t.isVarlen = true
    · rw [if_neg (by simp [hvl])]
      refine ⟨es1, rfl, ?_, hg1, ?_⟩
      · rw [hsz1]
        simp [Arg.size, hvl]
      · rw [hp1]
        simp [resLeaves]
    · have hvl' : t.isVarlen = false := Bool.eq_false_iff.mpr hvl
      rcases Bool.or_eq_true _ _ |>.mp hvu with h | h
      · exact absurd h (by simp [hvl'])
      · rw [Bool.and_eq_true] at h
        have hle : opt.size ≤ t.size := of_decide_eq_true h.1
        have hlt : t.size < 2 ^ 64 := of_decide_eq_true h.2
        have hszu : Arg.size (.union t opt) = t.size := by
          simp [Arg.size, hvl']
        have hpad : (if ¬ t.isVarlen = true
            then (Arg.size (.union t opt) + (2 ^ 64 - opt.size % 2 ^ 64)) % 2 ^ 64
            else 0) = t.size - opt.size := by
          rw [if_pos (by simp [hvl'] : ¬ t.isVarlen = true), hszu]
          exact union_pad_eq t.size opt.size hle hlt
        rw [hpad]
        by_cases hpz : t.size - opt.size ≠ 0
        · rw [if_pos hpz]
          obtain ⟨hg, hs, hp⟩ := ensureAppendData_spec es1
            (List.replicate (t.size - opt.size) 0) hg1
          refine ⟨_, rfl, ?_, hg, ?_⟩
          · rw [hs, List.length_replicate, hsz1, hszu]
            omega
          · rw [hp, hp1]
            simp [resLeaves]
        · rw [if_neg hpz]
          simp only [not_not] at hpz
          refine ⟨es1, rfl, ?_, hg1, ?_⟩
          · rw [hsz1, hszu]
            omega
          · rw [hp1]
            simp [resLeaves]
  | .group t inner => by
    intro hwf hw es hgood
    rw [wfSquash] at hwf
    simp only [Bool.and_eq_true] at hwf
    obtain ⟨⟨hbf0, hvg⟩, hwfin⟩ := hwf
    have hbf : t.bitfieldMid = false := by simpa using hbf0
    rw [widthsOk] at hw
    obtain ⟨es1, hes1, hsz1, hg1, hp1⟩ :=
      squash_master_fields tg inner hwfin hw es hgood
    have hfix : ∀ hvl' : t.isVarlen = false,
        sizeFields inner = t.size := by
      intro hvl'
      rcases Bool.or_eq_true _ _ |>.mp hvg with h | h
      · exact absurd h (by simp [hvl'])
      · exact of_decide_eq_true h
    unfold squashPtrImpl
    simp only [Arg.typ, hbf, Bool.false_eq_true, if_false]
    rw [hes1]
    dsimp only
    cases hk : t.kind with
    | structK align =>
      dsimp only
      by_cases hvl : t.isVarlen = true
      · by_cases ha : align ≠ 0
        · rw [if_pos (⟨hvl, ha⟩ : t.isVarlen = true ∧ align ≠ 0)]
          by_cases hm : sizeFields inner % align ≠ 0
          · rw [if_pos hm]
            have hpadpos : align - sizeFields inner % align ≠ 0 := by
              have := Nat.mod_lt (sizeFields inner) (Nat.pos_of_ne_zero (by
                intro hc
                exact ha hc))
              omega
            rw [if_pos hpadpos]
            obtain ⟨hg, hs, hp⟩ := ensureAppendData_spec es1
              (List.replicate (align - sizeFields inner % align) 0) hg1
            refine ⟨_, rfl, ?_, hg, ?_⟩
            · rw [hs, List.length_replicate, hsz1]
              simp only [Arg.size, hvl, hk, if_true]
              rw [if_pos (⟨ha, hm⟩ : align ≠ 0 ∧ sizeFields inner % align ≠ 0)]
              omega
            · rw [hp, hp1]
              simp [resLeaves]
          · rw [if_neg hm, if_neg (by simp : ¬ (0 : Nat) ≠ 0)]
            refine ⟨es1, rfl, ?_, hg1, ?_⟩
            · rw [hsz1]
              simp only [Arg.size, hvl, hk, if_true]
              rw [if_neg (fun hc => hm hc.2 :
                ¬ (align ≠ 0 ∧ sizeFields inner % align ≠ 0))]
            · rw [hp1]
              simp [resLeaves]
        · rw [if_neg (fun hc => ha hc.2 :
            ¬ (t.isVarlen = true ∧ align ≠ 0))]
          rw [if_neg (by simp : ¬ (0 : Nat) ≠ 0)]
          refine ⟨es1, rfl, ?_, hg1, ?_⟩
          · rw [hsz1]
            simp only [Arg.size, hvl, hk, if_true]
            rw [if_neg (fun hc => ha hc.1 :
              ¬ (align ≠ 0 ∧ sizeFields inner % align ≠ 0))]
          · rw [hp1]
            simp [resLeaves]
      · have hvl' : t.isVarlen = false := Bool.eq_false_iff.mpr hvl
        rw [if_neg (fun hc => hvl hc.1 :
          ¬ (t.isVarlen = true ∧ align ≠ 0))]
        rw [if_neg (by simp : ¬ (0 : Nat) ≠ 0)]
        refine ⟨es1, rfl, ?_, hg1, ?_⟩
        · rw [hsz1, hfix hvl']
          simp [Arg.size, hvl']
        · rw [hp1]
          simp [resLeaves]
    | arrayK =>
      dsimp only
      by_cases hvl : t.isVarlen = true
      · refine ⟨es1, rfl, ?_, hg1, ?_⟩
        · rw [hsz1]
          simp [Arg.size, hvl, hk]
        · rw [hp1]
          simp [resLeaves]
      · have hvl' : t.isVarlen = false := Bool.eq_false_iff.mpr hvl
        refine ⟨es1, rfl, ?_, hg1, ?_⟩
        · rw [hsz1, hfix hvl']
          simp [Arg.size, hvl']
        · rw [hp1]
          simp [resLeaves]
    | unionK n =>
      dsimp only
      by_cases hvl : t.isVarlen = true
      · refine ⟨es1, rfl, ?_, hg1, ?_⟩
        · rw [hsz1]
          simp [Arg.size, hvl, hk]
        · rw [hp1]
          simp [resLeaves]
      · have hvl' : t.isVarlen = false := Bool.eq_false_iff.mpr hvl
        refine ⟨es1, rfl, ?_, hg1, ?_⟩
        · rw [hsz1, hfix hvl']
          simp [Arg.size, hvl']
        · rw [hp1]
          simp [resLeaves]
    | ptrK u =>
      dsimp only
      by_cases hvl : t.isVarlen = true
      · refine ⟨es1, rfl, ?_, hg1, ?_⟩
        · rw [hsz1]
          simp [Arg.size, hvl, hk]
        · rw [hp1]
          simp [resLeaves]
      · have hvl' : t.isVarlen = false := Bool.eq_false_iff.mpr hvl
        refine ⟨es1, rfl, ?_, hg1, ?_⟩
        · rw [hsz1, hfix hvl']
          simp [Arg.size, hvl']
        · rw [hp1]
          simp [resLeaves]
    | resourceK rn =>
      dsimp only
      by_cases hvl : t.isVarlen = true
      · refine ⟨es1, rfl, ?_, hg1, ?_⟩
        · rw [hsz1]
          simp [Arg.size, hvl, hk]
        · rw [hp1]
          simp [resLeaves]
      · have hvl' : t.isVarlen = false := Bool.eq_false_iff.mpr hvl
        refine ⟨es1, rfl, ?_, hg1, ?_⟩
        · rw [hsz1, hfix hvl']
          simp [Arg.size, hvl']
        · rw [hp1]
          simp [resLeaves]
    | bufferK bk =>
      dsimp only
      by_cases hvl : t.isVarlen = true
      · refine ⟨es1, rfl, ?_, hg1, ?_⟩
        · rw [hsz1]
          simp [Arg.size, hvl, hk]
        · rw [hp1]
          simp [resLeaves]
      · have hvl' : t.isVarlen = false := Bool.eq_false_iff.mpr hvl
        refine ⟨es1, rfl, ?_, hg1, ?_⟩
        · rw [hsz1, hfix hvl']
          simp [Arg.size, hvl']
        · rw [hp1]
          simp [resLeaves]
    | csumK =>
      dsimp only
      by_cases hvl : t.isVarlen = true
      · refine ⟨es1, rfl, ?_, hg1, ?_⟩
        · rw [hsz1]
          simp [Arg.size, hvl, hk]
        · rw [hp1]
          simp [resLeaves]
      · have hvl' : t.isVarlen = false := Bool.eq_false_iff.mpr hvl
        refine ⟨es1, rfl, ?_, hg1, ?_⟩
        · rw [hsz1, hfix hvl']
          simp [Arg.size, hvl']
        · rw [hp1]
          simp [resLeaves]
    | constK pd =>
      dsimp only
      by_cases hvl : t.isVarlen = true
      · refine ⟨es1, rfl, ?_, hg1, ?_⟩
        · rw [hsz1]
          simp [Arg.size, hvl, hk]
        · rw [hp1]
          simp [resLeaves]
      · have hvl' : t.isVarlen = false := Bool.eq_false_iff.mpr hvl
        refine ⟨es1, rfl, ?_, hg1, ?_⟩
        · rw [hsz1, hfix hvl']
          simp [Arg.size, hvl']
        · rw [hp1]
          simp [resLeaves]
    | intK =>
      dsimp only
      by_cases hvl : t.isVarlen = true
      · refine ⟨es1, rfl, ?_, hg1, ?_⟩
        · rw [hsz1]
          simp [Arg.size, hvl, hk]
        · rw [hp1]
          simp [resLeaves]
      · have hvl' : t.isVarlen = false := Bool.eq_false_iff.mpr hvl
        refine ⟨es1, rfl, ?_, hg1, ?_⟩
        · rw [hsz1, hfix hvl']
          simp [Arg.size, hvl']
        · rw [hp1]
          simp [resLeaves]

theorem squash_master_fields (tg : Target) : ∀ (fs : List Arg),
    wfSquashFields tg fs = true → widthsOkFields fs = true →
    ∀ (es : List Arg), goodElems es = true →
    ∃ es', squashFields tg fs es = some es' ∧
      elemsSize es' = elemsSize es + sizeFields fs ∧
      goodElems es' = true ∧
      placeholders es' = placeholders es ++ (resLeavesFields fs).map retag
  | [] => by
    intro _ _ es hgood
    refine ⟨es, by rw [squashFields], by simp [sizeFields], hgood, ?_⟩
    simp [resLeavesFields]
  | f :: fs => by
    intro hwf hw es hgood
    rw [wfSquashFields, Bool.and_eq_true] at hwf
    rw [widthsOkFields, Bool.and_eq_true] at hw
    unfold squashFields
    by_cases hbf : f.typ.bitfieldMid = true
    · rw [if_pos hbf]
      obtain ⟨es', hres, hsz, hg, hp⟩ :=
        squash_master_fields tg fs hwf.2 hw.2 es hgood
      refine ⟨es', hres, ?_, hg, ?_⟩
      · rw [hsz, sizeFields, hbf]
        simp
      · rw [hp, resLeavesFields]
        simp [hbf]
    · rw [if_neg hbf]
      have hbf' : f.typ.bitfieldMid = false := Bool.eq_false_iff.mpr hbf
      have hwff : wfSquash tg f = true := by
        rcases Bool.or_eq_true _ _ |>.mp hwf.1 with h | h
        · exact absurd h (by simp [hbf'])
        · exact h
      have hwif : widthsOk f = true := by
        rcases Bool.or_eq_true _ _ |>.mp hw.1 with h | h
        · exact absurd h (by simp [hbf'])
        · exact h
      obtain ⟨es1, hes1, hsz1, hg1, hp1⟩ :=
        squash_master tg f hwff hwif es hgood
      rw [hes1]
      obtain ⟨es', hres, hsz, hg, hp⟩ :=
        squash_master_fields tg fs hwf.2 hw.2 es1 hg1
      refine ⟨es', hres, ?_, hg, ?_⟩
      · rw [hsz, hsz1, sizeFields, hbf']
        simp
        omega
      · rw [hp, hp1, resLeavesFields]
        simp [hbf']

end

mutual

theorem squash_bad_width (tg : Target) : ∀ (a : Arg), wfSquash tg a = true →
    widthsOk a = false → ∀ (es : List Arg), goodElems es = true →
    squashPtrImpl tg a es = none
  | .const t v => by
    intro _ hw es _
    exact absurd hw (by simp [widthsOk])
  | .data t bs sz => by
    intro _ hw es _
    exact absurd hw (by simp [widthsOk])
  | .ptr t addr none vma => by
    intro _ hw es _
    exact absurd hw (by simp [widthsOk])
  | .result t v => by
    intro hwf hw es _
    rw [wfSquash] at hwf
    have hbf : t.bitfieldMid = false := by simpa using hwf
    rw [widthsOk] at hw
    simp only [Bool.or_eq_false_iff, decide_eq_false_iff_not] at hw
    unfold squashPtrImpl
    simp only [Arg.typ, hbf, Bool.false_eq_true, if_false]
    rw [if_neg hw.1, if_neg hw.2]
  | .ptr t addr (some r) vma => by
    intro hwf hw es _
    rw [wfSquash] at hwf
    simp only [Bool.and_eq_true] at hwf
    obtain ⟨⟨⟨hbf0, hv0⟩, hws⟩, hwr⟩ := hwf
    have hbf : t.bitfieldMid = false := by simpa using hbf0
    have hveq : vma = 0 := of_decide_eq_true hv0
    subst hveq
    rw [widthsOk] at hw
    have hnone := squash_bad_width tg r hwr hw [] goodElems_nil
    unfold squashPtrImpl
    simp only [Arg.typ, hbf, Bool.false_eq_true, if_false]
    have hsq : squashPtr tg (.ptr t addr (some r) 0) false = none := by
      unfold squashPtr
      dsimp only
      rw [if_neg (by simp : ¬ (0 : Nat) ≠ 0), hnone]
    rw [hsq]
  | .union t opt => by
    intro hwf hw es hgood
    rw [wfSquash] at hwf
    simp only [Bool.and_eq_true] at hwf
    obtain ⟨⟨hbf0, -⟩, hwo⟩ := hwf
    have hbf : t.bitfieldMid = false := by simpa using hbf0
    rw [widthsOk] at hw
    have hnone := squash_bad_width tg opt hwo hw es hgood
    unfold squashPtrImpl
    simp only [Arg.typ, hbf, Bool.false_eq_true, if_false]
    rw [hnone]
  | .group t inner => by
    intro hwf hw es hgood
    rw [wfSquash] at hwf
    simp only [Bool.and_eq_true] at hwf
    obtain ⟨⟨hbf0, -⟩, hwfin⟩ := hwf
    have hbf : t.bitfieldMid = false := by simpa using hbf0
    rw [widthsOk] at hw
    have hnone := squash_bad_width_fields tg inner hwfin hw es hgood
    unfold squashPtrImpl
    simp only [Arg.typ, hbf, Bool.false_eq_true, if_false]
    rw [hnone]

theorem squash_bad_width_fields (tg : Target) : ∀ (fs : List Arg),
    wfSquashFields tg fs = true → widthsOkFields fs = false →
    ∀ (es : List Arg), goodElems es = true →
    squashFields tg fs es = none
  | [] => by
    intro _ hw es _
    exact absurd hw (by simp [widthsOkFields])
  | f :: fs => by
    intro hwf hw es hgood
    rw [wfSquashFields, Bool.and_eq_true] at hwf
    rw [widthsOkFields] at hw
    unfold squashFields
    by_cases hbf : f.typ.bitfieldMid = true
    · rw [if_pos hbf]
      have hrest : widthsOkFields fs = false := by
        rcases Bool.and_eq_false_iff.mp hw with h | h
        · rw [hbf] at h
          simp at h
        · exact h
      exact squash_bad_width_fields tg fs hwf.2 hrest es hgood
    · rw [if_neg hbf]
      have hbf' : f.typ.bitfieldMid = false := Bool.eq_false_iff.mpr hbf
      have hwff : wfSquash tg f = true := by
        rcases Bool.or_eq_true _ _ |>.mp hwf.1 with h | h
        · exact absurd h (by simp [hbf'])
        · exact h
      rcases Bool.and_eq_false_iff.mp hw with h | h
      · have hwfalse : widthsOk f = false := by
          rcases Bool.or_eq_false_iff.mp h with ⟨-, h2⟩
          exact h2
        rw [squash_bad_width tg f hwff hwfalse es hgood]
      · by_cases hwif : widthsOk f = true
        · obtain ⟨es1, hes1, -, hg1, -⟩ :=
            squash_master tg f hwff hwif es hgood
          rw [hes1]
          exact squash_bad_width_fields tg fs hwf.2 h es1 hg1
        · have hwfalse : widthsOk f = false := Bool.eq_false_iff.mpr hwif
          rw [squash_bad_width tg f hwff hwfalse es hgood]

end

mutual

theorem widthsOk_resLeaves : ∀ (a : Arg), widthsOk a = true →
    ∀ x ∈ resLeaves a, ∃ rt v, x = .result rt v ∧ (rt.size = 4 ∨ rt.size = 8)
  | .const t v => by
    intro _ x hx
    simp [resLeaves] at hx
  | .data t bs sz => by
    intro _ x hx
    simp [resLeaves] at hx
  | .ptr t addr res vma => by
    intro _ x hx
    cases res <;> simp [resLeaves] at hx
  | .result t v => by
    intro hw x hx
    rw [widthsOk] at hw
    simp only [resLeaves, List.mem_singleton] at hx
    subst hx
    refine ⟨t, v, rfl, ?_⟩
    rcases Bool.or_eq_true _ _ |>.mp hw with h | h
    · exact Or.inl (of_decide_eq_true h)
    · exact Or.inr (of_decide_eq_true h)
  | .union t opt => by
    intro hw x hx
    rw [widthsOk] at hw
    rw [resLeaves] at hx
    exact widthsOk_resLeaves opt hw x hx
  | .group t inner => by
    intro hw x hx
    rw [widthsOk] at hw
    rw [resLeaves] at hx
    exact widthsOk_resLeaves_fields inner hw x hx

theorem widthsOk_resLeaves_fields : ∀ (fs : List Arg),
    widthsOkFields fs = true →
    ∀ x ∈ resLeavesFields fs,
    ∃ rt v, x = .result rt v ∧ (rt.size = 4 ∨ rt.size = 8)
  | [] => by
    intro _ x hx
    simp [resLeavesFields] at hx
  | f :: fs => by
    intro hw x hx
    rw [widthsOkFields, Bool.and_eq_true] at hw
    rw [resLeavesFields] at hx
    rcases List.mem_append.mp hx with h | h
    · by_cases hbf : f.typ.bitfieldMid = true
      · rw [if_pos hbf] at h
        simp at h
      · rw [if_neg hbf] at h
        have hbf' : f.typ.bitfieldMid = false := Bool.eq_false_iff.mpr hbf
        have hwf : widthsOk f = true := by
          rcases Bool.or_eq_true _ _ |>.mp hw.1 with h2 | h2
          · exact absurd h2 (by simp [hbf'])
          · exact h2
        exact widthsOk_resLeaves f hwf x h
    · exact widthsOk_resLeaves_fields fs hw.2 x h

end

/-! Squash claim theorems. -/

/-- C1: for a pointer argument whose payload is a non-null nested
subtree (`Res` set, VMA size zero) that is squash-well-formed,
`squashPtr` succeeds — so the final size-mismatch panic is
unreachable — and replaces the subtree in place with a universal
pointer to a sequence over the ANY vocabulary whose total byte size
equals the subtree's size recorded before squashing. -/
theorem squashPtr_size_preserved (tg : Target) (t : Typ) (addr : Nat)
    (r : Arg) (pf : Bool)
    (hwf : wfSquash tg (.ptr t addr (some r) 0) = true)
    (hw : widthsOk r = true) :
    ∃ t' es, squashPtr tg (.ptr t addr (some r) 0) pf
        = some (.ptr t' addr (some (.group anyArrayT es)) 0) ∧
      isAnyPtr t' = true ∧
      Arg.size (.group anyArrayT es) = Arg.size r ∧
      es.all vocabElem = true := by
  rw [wfSquash] at hwf
  simp only [Bool.and_eq_true] at hwf
  obtain ⟨⟨⟨hbf0, hv0⟩, hws⟩, hwr⟩ := hwf
  obtain ⟨es1, hes1, hsz1, hg1, hp1⟩ :=
    squash_master tg r hwr hw [] goodElems_nil
  rw [elemsSize, Nat.zero_add] at hsz1
  have hsv : (t.size = tg.ptrSize ∨ t.size = 8) := by
    rcases Bool.or_eq_true _ _ |>.mp hws with h | h
    · exact Or.inl (of_decide_eq_true h)
    · exact Or.inr (of_decide_eq_true h)
  obtain ⟨t', hmk, htsz, htk⟩ :=
    makeAnyPtrType_spec tg t.size (if pf then t.name else "") hsv
  have hall : es1.all vocabElem = true := by
    rw [goodElems, Bool.and_eq_true] at hg1
    exact hg1.1
  have hgzsz : Arg.size (.group anyArrayT es1) = Arg.size r := by
    simp only [Arg.size, anyArrayT]
    rw [sizeFields_eq_elemsSize es1 hall, hsz1]
    simp
  have hne : ¬ (Arg.size (.group anyArrayT es1) ≠ Arg.size r) := by
    rw [hgzsz]
    exact fun hc => hc rfl
  refine ⟨t', es1, ?_, isAnyPtr_of_kind htk, hgzsz, hall⟩
  unfold squashPtr
  dsimp only
  rw [if_neg (by simp : ¬ (0 : Nat) ≠ 0), hes1]
  dsimp only
  rw [hmk]
  dsimp only
  rw [if_neg hne]

theorem squashPtr_size_preserved_witness :
    ∃ t' es, squashPtr exTarget (.ptr exPtrT 0x1000 (some exStructArg) 0) false
        = some (.ptr t' 0x1000 (some (.group anyArrayT es)) 0) ∧
      isAnyPtr t' = true ∧
      Arg.size (.group anyArrayT es) = Arg.size exStructArg ∧
      es.all vocabElem = true :=
  squashPtr_size_preserved exTarget exPtrT 0x1000 exStructArg false
    (by decide) (by decide)

/-- C7: on a squash-well-formed subtree whose resource leaves all have
width 4 or 8, squashing emits exactly one kind-erased placeholder per
resource leaf, width-matched (4-byte leaves become `ANYRES32`, 8-byte
leaves `ANYRES64`, sizes preserved) and in the original relative
order; and if some resource leaf reached by the walk has any other
width the squash walk fails (the bad-size panic fires). -/
theorem squash_resource_placeholders (tg : Target) (a : Arg)
    (hwf : wfSquash tg a = true) :
    (widthsOk a = true →
      ∃ es', squashPtrImpl tg a [] = some es' ∧
        placeholders es' = (resLeaves a).map retag ∧
        ∀ x ∈ resLeaves a, ∃ rt v, x = .result rt v ∧
          ((rt.size = 4 ∧ retag x = .result anyRes32T v) ∨
           (rt.size = 8 ∧ retag x = .result anyRes64T v))) ∧
    (widthsOk a = false → squashPtrImpl tg a [] = none) := by
  constructor
  · intro hw
    obtain ⟨es', hes, hsz, hg, hp⟩ :=
      squash_master tg a hwf hw [] goodElems_nil
    refine ⟨es', hes, ?_, ?_⟩
    · rw [hp]
      simp [placeholders]
    · intro x hx
      obtain ⟨rt, v, hxeq, hsz48⟩ := widthsOk_resLeaves a hw x hx
      subst hxeq
      refine ⟨rt, v, rfl, ?_⟩
      rcases hsz48 with h4 | h8
      · exact Or.inl ⟨h4, by simp [retag, h4]⟩
      · refine Or.inr ⟨h8, ?_⟩
        have hne4 : rt.size ≠ 4 := by
          rw [h8]
          decide
        simp [retag, hne4]
  · intro hw
    exact squash_bad_width tg a hwf hw [] goodElems_nil

theorem squash_resource_placeholders_witness :
    (widthsOk exStructArg = true →
      ∃ es', squashPtrImpl exTarget exStructArg [] = some es' ∧
        placeholders es' = (resLeaves exStructArg).map retag ∧
        ∀ x ∈ resLeaves exStructArg, ∃ rt v, x = .result rt v ∧
          ((rt.size = 4 ∧ retag x = .result anyRes32T v) ∨
           (rt.size = 8 ∧ retag x = .result anyRes64T v))) ∧
    (widthsOk exStructArg = false →
      squashPtrImpl exTarget exStructArg [] = none) :=
  squash_resource_placeholders exTarget exStructArg (by decide)

/-- C10: squashing a squash-well-formed subtree into a sequence that
satisfies the output invariant preserves that invariant: every
element of the produced sequence is a union over the five-member ANY
vocabulary, and no two consecutive elements are byte-blob elements —
bytes are merged into the open trailing blob, and a fresh blob is
opened only when the sequence is empty or its last element is not a
blob. -/
theorem squash_output_vocab (tg : Target) (a : Arg)
    (hwf : wfSquash tg a = true) (hw : widthsOk a = true)
    (es : List Arg) (hgood : goodElems es = true) :
    ∃ es', squashPtrImpl tg a es = some es' ∧ goodElems es' = true := by
  obtain ⟨es', hes, -, hg, -⟩ := squash_master tg a hwf hw es hgood
  exact ⟨es', hes, hg⟩

theorem squash_output_vocab_witness :
    ∃ es', squashPtrImpl exTarget exStructArg [] = some es' ∧
      goodElems es' = true :=
  squash_output_vocab exTarget exStructArg (by decide) (by decide)
    [] (by decide)

end Syz
